import Mathlib

set_option maxHeartbeats 1600000

/-!
Verification development for the cbmm memory-management estimator
(`src/mm/estimator.c`).  The per-process profile store is a kernel red-black
tree of `struct profile_range`; we embed it as a binary search tree whose
in-order sequence is the tree's key order.  The library calls
`rb_link_node`/`rb_insert_color`/`rb_erase`/`rb_next`/`rb_prev` (kernel
`lib/rbtree.c`, outside this repository) only rebalance: they never change the
in-order sequence, so they are modelled by their effect on that sequence.
Unsigned 64-bit kernel arithmetic is embedded as `Nat` with explicit `% 2^64`
at every operation that can wrap.
-/

namespace Cbmm

/-- Modulus of the kernel's unsigned 64-bit (`u64`) arithmetic. -/
def U64 : Nat := 2 ^ 64

/-- A `u64` addition `a + b` (wraps at `2^64`). -/
def uadd (a b : Nat) : Nat := (a + b) % U64

/-- A `u64` multiplication `a * b` (wraps at `2^64`). -/
def umul (a b : Nat) : Nat := (a * b) % U64

/-- The record `struct profile_range` of `src/mm/estimator.c`: a half-open
address range `[start, end)` with an attached benefit value.  The C field
`end` is named `stop` here because `end` is a Lean keyword.  The embedded
`struct rb_node` is represented by the node's position in `Rbt` below. -/
structure profile_range where
  start : Nat
  stop : Nat
  benefit : Nat
deriving DecidableEq, Repr

/-- The per-process range store: the kernel `struct rb_root` holding
`profile_range` nodes, embedded as a binary search tree keyed by `start`.
Node colours are dropped: rebalancing never changes the key order that all
the routines in `estimator.c` traverse. -/
inductive Rbt where
  | leaf
  | node (l : Rbt) (r : profile_range) (rt : Rbt)
deriving DecidableEq, Repr

namespace Rbt

/-- In-order sequence of the stored ranges: the order `rb_first`/`rb_next`
traverse the kernel tree in. -/
def inorder : Rbt → List profile_range
  | leaf => []
  | node l r rt => inorder l ++ r :: inorder rt

end Rbt

open Rbt

/-- `ranges_overlap` of `estimator.c` (lines 281-286), verbatim:
`(r1->start <= r2->start && r2->start < r1->end) ||
 (r2->start <= r1->start && r1->start < r2->end)`. -/
def ranges_overlap (r1 r2 : profile_range) : Bool :=
  (r1.start ≤ r2.start && r2.start < r1.stop) ||
  (r2.start ≤ r1.start && r1.start < r2.stop)

/-- Overlap as the specification words it for C2: two ranges `[a.start,a.end)`
and `[b.start,b.end)` overlap iff `a.start < b.end` and `b.start < a.end`. -/
def spec_overlap (a b : profile_range) : Prop :=
  a.start < b.stop ∧ b.start < a.stop

/-- Phase one of `remove_overlapping_ranges` (lines 300-316): descend the
tree; on an overlap record the node and keep descending left, otherwise
branch on `new_range->start < cur_range->start`.  Returns the last node
recorded in `first_overlapping`. -/
def first_overlapping (t : Rbt) (x : profile_range) : Option profile_range :=
  match t with
  | .leaf => none
  | .node l r rt =>
    if ranges_overlap x r then some ((first_overlapping l x).getD r)
    else if x.start < r.start then first_overlapping l x
    else first_overlapping rt x

/-- The in-order suffix that starts at node `w`: the sequence `w`,
`rb_next(w)`, `rb_next(rb_next(w))`, ... that the erase loop of
`remove_overlapping_ranges` walks. -/
def suffFrom : List profile_range → profile_range → List profile_range
  | [], _ => []
  | r :: rest, w => if r = w then r :: rest else suffFrom rest w

/-- Rebuild a search tree holding a given in-order sequence (as a right
spine).  Used to model the unspecified shape the kernel rb-tree has after a
rebalancing `rb_erase`. -/
def treeOfSorted (l : List profile_range) : Rbt :=
  l.foldr (fun r acc => Rbt.node Rbt.leaf r acc) Rbt.leaf

/-- The kernel library call `rb_erase(node, root)` (lib/rbtree.c, external to
this repository), modelled by its contract: the node with the given start key
leaves the in-order sequence, the remaining order is unchanged, and the
resulting shape (which rebalancing leaves unspecified) is the canonical one. -/
def rb_erase (t : Rbt) (key : Nat) : Rbt :=
  treeOfSorted ((inorder t).filter (fun r => r.start ≠ key))

/-- `remove_overlapping_ranges` of `estimator.c` (lines 291-337): find the
first overlapping node (phase one), then erase nodes along `rb_next` while
they keep overlapping the new range. -/
def remove_overlapping_ranges (t : Rbt) (new_range : profile_range) : Rbt :=
  match first_overlapping t new_range with
  | none => t
  | some w =>
    let run := (suffFrom (inorder t) w).takeWhile (fun r => ranges_overlap new_range r)
    run.foldl (fun acc r => rb_erase acc r.start) t

/-- The insertion descent of `profile_range_insert` (lines 351-365) followed
by `rb_link_node`/`rb_insert_color`.  On a start tie the C loop `break`s and
`rb_link_node` links the new node over the link that still points at the tie
node, so the new node takes the place of that node's entire subtree. -/
def rb_insert_descent (t : Rbt) (x : profile_range) : Rbt :=
  match t with
  | .leaf => .node .leaf x .leaf
  | .node l r rt =>
    if x.start < r.start then .node (rb_insert_descent l x) r rt
    else if r.start < x.start then .node l r (rb_insert_descent rt x)
    else .node .leaf x .leaf

/-- `profile_range_insert` of `estimator.c` (lines 344-366): evict every
range overlapping the new one, then do the ordered insert by `start`. -/
def profile_range_insert (t : Rbt) (new_range : profile_range) : Rbt :=
  rb_insert_descent (remove_overlapping_ranges t new_range) new_range

/-- `profile_search` of `estimator.c` (lines 190-209): point containment
descent. -/
def profile_search (t : Rbt) (addr : Nat) : Option profile_range :=
  match t with
  | .leaf => none
  | .node l r rt =>
    if r.start ≤ addr ∧ addr < r.stop then some r
    else if addr < r.start then profile_search l addr
    else profile_search rt addr

/-- `enum mmap_comparator` of `estimator.c`. -/
inductive mmap_comparator where
  | CompEquals
  | CompGreaterThan
  | CompLessThan
deriving DecidableEq, Repr

open mmap_comparator

/-- Phase one of `profile_find_first_range` for `CompLessThan` (lines
228-234): break on the first node with `start < addr`, else descend left. -/
def ff_lt_phase1 (t : Rbt) (addr : Nat) : Option profile_range :=
  match t with
  | .leaf => none
  | .node l r _ => if r.start < addr then some r else ff_lt_phase1 l addr

/-- Phase one of `profile_find_first_range` for `CompGreaterThan` (lines
235-241): break on the first node with `end > addr`, else descend right. -/
def ff_gt_phase1 (t : Rbt) (addr : Nat) : Option profile_range :=
  match t with
  | .leaf => none
  | .node _ r rt => if addr < r.stop then some r else ff_gt_phase1 rt addr

/-- The `CompEquals` branch of `profile_find_first_range` (lines 242-251):
containment descent that returns the range directly. -/
def ff_eq_descent (t : Rbt) (addr : Nat) : Option profile_range :=
  match t with
  | .leaf => none
  | .node l r rt =>
    if r.start ≤ addr ∧ addr < r.stop then some r
    else if r.start < addr then ff_eq_descent rt addr
    else ff_eq_descent l addr

/-- Phase two of `profile_find_first_range` for `CompLessThan` (lines
263-268): walk `rb_next` while `start < addr`, keeping the last witness.
`res` is the current `result`, `rest` the remaining successor sequence. -/
def ff_lt_scan (res : profile_range) (rest : List profile_range) (addr : Nat) :
    profile_range :=
  match rest with
  | [] => res
  | r :: rest => if addr ≤ r.start then res else ff_lt_scan r rest addr

/-- Phase two of `profile_find_first_range` for `CompGreaterThan` (lines
269-275): walk `rb_prev` while `end > addr`, keeping the last witness. -/
def ff_gt_scan (res : profile_range) (rest : List profile_range) (addr : Nat) :
    profile_range :=
  match rest with
  | [] => res
  | r :: rest => if r.stop ≤ addr then res else ff_gt_scan r rest addr

/-- The in-order successors of node `w` (the `rb_next` chain after `w`). -/
def succAfter (l : List profile_range) (w : profile_range) : List profile_range :=
  (suffFrom l w).drop 1

/-- The in-order predecessors of node `w` in `rb_prev` (reverse) order. -/
def predBefore (l : List profile_range) (w : profile_range) : List profile_range :=
  (l.takeWhile (fun r => r ≠ w)).reverse

/-- `profile_find_first_range` of `estimator.c` (lines 216-279): find a
witness node satisfying the comparison (phase one), then walk
successors/predecessors while the predicate holds, tracking the extremal
witness (phase two).  For `CompEquals` phase one returns the containing range
directly. -/
def profile_find_first_range (t : Rbt) (addr : Nat) (comp : mmap_comparator) :
    Option profile_range :=
  match comp with
  | CompEquals => ff_eq_descent t addr
  | CompLessThan =>
    match ff_lt_phase1 t addr with
    | none => none
    | some w => some (ff_lt_scan w (succAfter (inorder t) w) addr)
  | CompGreaterThan =>
    match ff_gt_phase1 t addr with
    | none => none
    | some w => some (ff_gt_scan w (predBefore (inorder t) w) addr)

/-- PAGE_SIZE of the modelled x86-64 kernel build (4 KiB). -/
def PAGE_SIZE : Nat := 4096

/-- The in-place mutation of a node's `profile_range` payload (the C code
updates `base_range->start` or `base_range->end` while the node sits in the
tree): every node holding `old` is rewritten to `new`. -/
def tree_replace (t : Rbt) (old new : profile_range) : Rbt :=
  match t with
  | .leaf => .leaf
  | .node l r rt =>
    if r = old then .node l new rt
    else .node (tree_replace l old new) r (tree_replace rt old new)

/-- `mm_split_ranges` of `estimator.c` (lines 884-949): split `base_range`,
which is a node of `subranges`, at `addr` according to `comp`, inserting the
new zero-benefit sibling(s) through `profile_range_insert`.  Allocation of
the sibling (`mm_econ_vmalloc`) is modelled as always succeeding, so the
`return false` out-of-memory path does not appear. -/
def mm_split_ranges (base_range : profile_range) (subranges : Rbt)
    (addr : Nat) (comp : mmap_comparator) : Rbt :=
  match comp with
  | CompGreaterThan =>
    if addr ≤ base_range.start then subranges
    else
      let split_range : profile_range := ⟨base_range.start, addr, 0⟩
      let base' : profile_range := { base_range with start := addr }
      profile_range_insert (tree_replace subranges base_range base') split_range
  | CompLessThan =>
    if base_range.stop ≤ addr then subranges
    else
      let split_range : profile_range := ⟨addr, base_range.stop, 0⟩
      let base' : profile_range := { base_range with stop := addr }
      profile_range_insert (tree_replace subranges base_range base') split_range
  | CompEquals =>
    let step1 :=
      if base_range.start < addr then
        let split_range : profile_range := ⟨base_range.start, addr, 0⟩
        let base' : profile_range := { base_range with start := addr }
        (base', profile_range_insert (tree_replace subranges base_range base') split_range)
      else (base_range, subranges)
    let base1 := step1.1
    let t1 := step1.2
    if addr + PAGE_SIZE < base1.stop then
      let split_range : profile_range := ⟨addr + PAGE_SIZE, base1.stop, 0⟩
      let base' : profile_range := { base1 with stop := addr + PAGE_SIZE }
      profile_range_insert (tree_replace t1 base1 base') split_range
    else t1

/-!
The estimator.  `struct mm_action` and the `MM_ACTION_*` codes come from
`include/linux/mm_econ.h`, which is not part of the provided sources.
Modelled from the spec: the action descriptor carries an action kind, a fault
address, a length and a requested prezero count; the kind codes are distinct
integers, numbered here in the order the `switch` of `mm_estimate_changes`
lists them.  Only their distinctness matters to the code under proof.
-/

def MM_ACTION_NONE : Nat := 0
def MM_ACTION_PROMOTE_HUGE : Nat := 1
def MM_ACTION_DEMOTE_HUGE : Nat := 2
def MM_ACTION_RUN_DEFRAG : Nat := 3
def MM_ACTION_RUN_PROMOTION : Nat := 4
def MM_ACTION_RUN_PREZEROING : Nat := 5
def MM_ACTION_ALLOC_RECLAIM : Nat := 6
def MM_ACTION_EAGER_PAGING : Nat := 7

/-- The action descriptor (`struct mm_action`), all quantities `u64` except
the kind. -/
structure mm_action where
  action : Nat
  address : Nat
  len : Nat
  prezero_n : Nat
deriving DecidableEq, Repr

/-- The `extra` field of `struct mm_cost_delta`: a plain `u64` for the
huge-page path, or (for eager paging) a pointer to a vmalloc'd array of
`struct range`, modelled by the array's contents (the C code terminates the
array with a `{-1, -1}` sentinel, included here). -/
inductive extra_val where
  | num (v : Nat)
  | range_list (l : List (Nat × Nat))
deriving DecidableEq, Repr

/-- `struct mm_cost_delta`: the transient cost/benefit output of one
estimation call. -/
structure mm_cost_delta where
  cost : Nat
  benefit : Nat
  extra : extra_val
deriving DecidableEq, Repr

/-- `enum free_huge_page_status` of `estimator.c` (lines 428-432). -/
inductive free_huge_page_status where
  | fhps_none
  | fhps_free
  | fhps_zeroed
deriving DecidableEq, Repr

open free_huge_page_status

/-- The numeric value of the status enum (the C code compares statuses with
`>` on the enum's integer value). -/
def fhps_val : free_huge_page_status → Nat
  | fhps_none => 0
  | fhps_free => 1
  | fhps_zeroed => 2

/-- Snapshot of everything `mm_estimate_changes` reads besides its
arguments: the allocator backend (`have_free_huge_pages`), the optional TLB
miss estimator, the scheduler load report (`get_avenrun`,
`num_online_cpus`), the prezeroed-usage estimator
(`mm_estimated_prezeroed_used`), the two sysfs tunables, and the current
process's profile trees (`find_filter_proc_by_pid(current->tgid)`, `none`
when the process is not registered). -/
structure estimator_env where
  fhps : free_huge_page_status
  tlb_miss_est_fn : Option (mm_action → Nat)
  load1 : Nat
  ncpus : Nat
  recent_used : Nat
  mm_econ_contention_ms : Nat
  mm_econ_freq_mhz : Nat
  hp_ranges : Option Rbt
  eager_ranges : Option Rbt

/-- The monotonic counters of `estimator.c` (lines 112-122).  The
`mm_stats_hist_measure` histograms and `mm_econ_vmalloc_bytes` live in other
subsystems / are pure allocation bookkeeping and are not modelled. -/
structure econ_stats where
  mm_econ_num_estimates : Nat
  mm_econ_num_decisions : Nat
  mm_econ_num_decisions_yes : Nat
  mm_econ_num_hp_promotions : Nat
  mm_econ_num_async_compaction : Nat
  mm_econ_num_async_prezeroing : Nat
deriving DecidableEq, Repr

/-- `compute_hpage_benefit_from_profile` (lines 483-507): look the fault
address up in the process's huge-page range tree; 0 when the process is not
registered or no range contains the address. -/
def compute_hpage_benefit_from_profile (g : estimator_env) (action : mm_action) : Nat :=
  match g.hp_ranges with
  | none => 0
  | some t =>
    match profile_search t action.address with
    | none => 0
    | some range => range.benefit

/-- `compute_hpage_benefit` (lines 509-516). -/
def compute_hpage_benefit (g : estimator_env) (action : mm_action) : Nat :=
  match g.tlb_miss_est_fn with
  | some f => f action
  | none => compute_hpage_benefit_from_profile g action

/-- `mm_estimate_huge_page_promote_cost_benefit` (lines 600-624). -/
def mm_estimate_huge_page_promote_cost_benefit (g : estimator_env)
    (action : mm_action) (cost : mm_cost_delta) : mm_cost_delta :=
  let alloc_cost := if fhps_val fhps_none < fhps_val g.fhps then 0 else 2 ^ 32
  let prep_cost := if fhps_val fhps_free < fhps_val g.fhps then 0 else 100 * 2000
  { cost with
    cost := uadd alloc_cost prep_cost
    extra := extra_val.num (if g.fhps = fhps_zeroed then 1 else 0)
    benefit := compute_hpage_benefit g action }

/-- `mm_estimate_huge_page_reclaim_cost` (lines 628-639). -/
def mm_estimate_huge_page_reclaim_cost (cost : mm_cost_delta) : mm_cost_delta :=
  { cost with cost := uadd cost.cost 1000000000 }

/-- `mm_estimate_daemon_cost` (lines 644-695).  The `default: BUG()` arm is
unreachable from `mm_estimate_changes`; it is modelled as leaving the cost
unchanged (the C `return` after `BUG()`). -/
def mm_estimate_daemon_cost (g : estimator_env) (action : mm_action)
    (cost : mm_cost_delta) : mm_cost_delta :=
  let huge_page_zeroing_cost := 1000000
  if g.load1 < g.ncpus then { cost with cost := 0 }
  else if action.action = MM_ACTION_RUN_PREZEROING then
    { cost with cost := umul huge_page_zeroing_cost action.prezero_n }
  else if action.action = MM_ACTION_RUN_DEFRAG ∨
          action.action = MM_ACTION_RUN_PROMOTION then
    { cost with cost := 2 ^ 32 }
  else cost

/-- `mm_estimate_async_prezeroing_benefit` (lines 699-719). -/
def mm_estimate_async_prezeroing_benefit (g : estimator_env)
    (action : mm_action) (cost : mm_cost_delta) : mm_cost_delta :=
  let zeroing_per_page_cost := 1000000
  { cost with benefit := umul (min action.prezero_n g.recent_used) zeroing_per_page_cost }

/-- `mm_estimate_async_prezeroing_lock_contention_cost` (lines 731-740):
`nfree = mm_econ_contention_ms * mm_econ_freq_mhz * 1000 /
critical_section_cost`, then charge `critical_section_cost` for each
requested prezero operation beyond `nfree`.  All arithmetic is `u64`. -/
def mm_estimate_async_prezeroing_lock_contention_cost (g : estimator_env)
    (action : mm_action) (cost : mm_cost_delta) : mm_cost_delta :=
  let critical_section_cost := 150 * 2
  let nfree := umul (umul g.mm_econ_contention_ms g.mm_econ_freq_mhz) 1000 /
                 critical_section_cost
  { cost with
    cost := uadd cost.cost
      (umul (if nfree < action.prezero_n then action.prezero_n - nfree else 0)
        critical_section_cost) }

/-- The `rb_next` walk of `compute_eager_page_benefit` (lines 546-587): the
ranges from the found node onward until one is disjoint from
`[start, end)`. -/
def eager_walk (t : Rbt) (first_range : profile_range) (start stop : Nat) :
    List profile_range :=
  (suffFrom (inorder t) first_range).takeWhile
    (fun r => !(r.stop ≤ start || stop ≤ r.start))

/-- `compute_eager_page_benefit` (lines 518-597): scan the eager tree for
ranges overlapping `[address, address+len)` whose benefit exceeds the cost
computed so far; the maximal such benefit is returned and the matching range
list is attached to `extra` (the vmalloc of the array is modelled as always
succeeding). -/
def compute_eager_page_benefit (g : estimator_env) (action : mm_action)
    (cost : mm_cost_delta) : mm_cost_delta :=
  let start := action.address
  let stop := uadd action.address action.len
  let matching : List profile_range :=
    match g.eager_ranges with
    | none => []
    | some t =>
      match profile_find_first_range t start mmap_comparator.CompGreaterThan with
      | none => []
      | some first_range =>
        (eager_walk t first_range start stop).filter (fun r => cost.cost < r.benefit)
  if matching = [] then { cost with benefit := 0 }
  else
    { cost with
      benefit := (matching.map (fun r => r.benefit)).foldl max 0
      extra := extra_val.range_list
        ((matching.map (fun r => (r.start, r.stop))) ++ [(U64 - 1, U64 - 1)]) }

/-- `mm_estimate_eager_page_cost_benefit` (lines 743-754). -/
def mm_estimate_eager_page_cost_benefit (g : estimator_env)
    (action : mm_action) (cost : mm_cost_delta) : mm_cost_delta :=
  compute_eager_page_benefit g action { cost with cost := umul g.mm_econ_freq_mhz 10 }

/-- `mm_estimate_changes` of `estimator.c` (lines 767-833): dispatch on the
action kind, then bump the estimate counter.  The histogram recording and
the debug `pr_warn` are observational externals and not modelled.  Note the
`default:` arm only logs: it does not write the cost struct. -/
def mm_estimate_changes (g : estimator_env) (action : mm_action)
    (cost : mm_cost_delta) (s : econ_stats) : mm_cost_delta × econ_stats :=
  let out :=
    if action.action = MM_ACTION_NONE then
      ({ cost with cost := 0, benefit := 0 }, s)
    else if action.action = MM_ACTION_PROMOTE_HUGE then
      (mm_estimate_huge_page_promote_cost_benefit g action cost, s)
    else if action.action = MM_ACTION_DEMOTE_HUGE then
      ({ cost with cost := 0, benefit := 0 }, s)
    else if action.action = MM_ACTION_RUN_DEFRAG then
      let c := { (mm_estimate_daemon_cost g action cost) with benefit := 0 }
      let s' := { s with mm_econ_num_async_compaction := uadd s.mm_econ_num_async_compaction 1 }
      (c, if c.cost < c.benefit then s' else s)
    else if action.action = MM_ACTION_RUN_PROMOTION then
      ({ (mm_estimate_daemon_cost g action cost) with benefit := 0 }, s)
    else if action.action = MM_ACTION_RUN_PREZEROING then
      let c := mm_estimate_async_prezeroing_benefit g action
        (mm_estimate_async_prezeroing_lock_contention_cost g action
          (mm_estimate_daemon_cost g action cost))
      let s' := { s with mm_econ_num_async_prezeroing := uadd s.mm_econ_num_async_prezeroing 1 }
      (c, if c.cost < c.benefit then s' else s)
    else if action.action = MM_ACTION_ALLOC_RECLAIM then
      (mm_estimate_huge_page_reclaim_cost
        (mm_estimate_huge_page_promote_cost_benefit g action cost), s)
    else if action.action = MM_ACTION_EAGER_PAGING then
      (mm_estimate_eager_page_cost_benefit g action cost, s)
    else
      (cost, s)
  (out.1, { out.2 with mm_econ_num_estimates := uadd out.2.mm_econ_num_estimates 1 })

/-- `mm_decide` of `estimator.c` (lines 837-857): bump the decision counter;
mode 0 returns true, mode 1 compares benefit to cost strictly and bumps the
yes counter on a yes.  Any other mode hits `BUG()`; the `return false` that
follows it is kept as the modelled result. -/
def mm_decide (mm_econ_mode : Int) (cost : mm_cost_delta) (s : econ_stats) :
    Bool × econ_stats :=
  let s := { s with mm_econ_num_decisions := uadd s.mm_econ_num_decisions 1 }
  if mm_econ_mode = 0 then (true, s)
  else if mm_econ_mode = 1 then
    let should_do := cost.cost < cost.benefit
    if should_do then
      (true, { s with mm_econ_num_decisions_yes := uadd s.mm_econ_num_decisions_yes 1 })
    else (false, s)
  else (false, s)

/-!
The filter-program write path (`mmap_filters_write`, lines 1729-1911).  The
user buffer is NUL-terminated and then tokenised with the kernel `strsep`;
we model the buffer as the list of its characters up to that terminating
NUL.  Allocation failures (`-ENOMEM`) and `copy_from_user` faults
(`-EFAULT`) are not modelled: allocation is treated as always succeeding.
-/

/-- `enum mm_policy` of `estimator.c` (lines 51-54). -/
inductive mm_policy where
  | PolicyHugePage
  | PolicyEagerPage
deriving DecidableEq, Repr

/-- `enum mm_memory_section`.  Modelled from the spec: the section codes of
`include/linux/mm_econ.h` (not in the provided sources) are the four
sections `code`, `data`, `heap`, `mmap` named in the filter format. -/
inductive mm_memory_section where
  | SectionCode
  | SectionData
  | SectionHeap
  | SectionMmap
deriving DecidableEq, Repr

/-- `enum mmap_quantity` of `estimator.c` (lines 65-73). -/
inductive mmap_quantity where
  | QuantSectionOff
  | QuantAddr
  | QuantLen
  | QuantProt
  | QuantFlags
  | QuantFD
  | QuantOff
deriving DecidableEq, Repr

/-- `struct mmap_comparison` of `estimator.c` (lines 76-81). -/
structure mmap_comparison where
  quant : mmap_quantity
  comp : mmap_comparator
  val : Nat
deriving DecidableEq, Repr

/-- `struct mmap_filter` of `estimator.c` (lines 85-91).  The C field
`section` is named `sect` here because `section` is a Lean keyword. -/
structure mmap_filter where
  sect : mm_memory_section
  policy : mm_policy
  benefit : Nat
  comparisons : List mmap_comparison
deriving DecidableEq, Repr

/-- Kernel `strsep(&s, sep)`: returns the token before the first separator
and the remainder after it, or `none` for the remainder when no separator
occurs (in C the source pointer becomes NULL). -/
def strsep (sep : Char) : List Char → List Char × Option (List Char)
  | [] => ([], none)
  | c :: cs =>
    if c = sep then ([], some cs)
    else
      let r := strsep sep cs
      (c :: r.1, r.2)

/-- When `strsep` finds a separator, the remainder is strictly shorter than
the input (the separator itself is consumed). -/
theorem strsep_rest_length (sep : Char) (s r : List Char)
    (h : (strsep sep s).2 = some r) : r.length < s.length := by
  induction s with
  | nil => simp [strsep] at h
  | cons c cs ih =>
    by_cases hc : c = sep
    · simp [strsep, hc] at h
      subst h
      simp
    · simp [strsep, hc] at h
      have := ih h
      simp
      omega

/-- `get_mm_policy` of `estimator.c` (lines 1628-1641). -/
def get_mm_policy (buf : List Char) : Option mm_policy :=
  if buf = "huge".toList then some mm_policy.PolicyHugePage
  else if buf = "eager".toList then some mm_policy.PolicyEagerPage
  else none

/-- `get_memory_section` of `estimator.c` (lines 1609-1626). -/
def get_memory_section (buf : List Char) : Option mm_memory_section :=
  if buf = "code".toList then some mm_memory_section.SectionCode
  else if buf = "data".toList then some mm_memory_section.SectionData
  else if buf = "heap".toList then some mm_memory_section.SectionHeap
  else if buf = "mmap".toList then some mm_memory_section.SectionMmap
  else none

/-- `get_mmap_quantity` of `estimator.c` (lines 1643-1666). -/
def get_mmap_quantity (buf : List Char) : Option mmap_quantity :=
  if buf = "section_off".toList then some mmap_quantity.QuantSectionOff
  else if buf = "addr".toList then some mmap_quantity.QuantAddr
  else if buf = "len".toList then some mmap_quantity.QuantLen
  else if buf = "prot".toList then some mmap_quantity.QuantProt
  else if buf = "flags".toList then some mmap_quantity.QuantFlags
  else if buf = "fd".toList then some mmap_quantity.QuantFD
  else if buf = "off".toList then some mmap_quantity.QuantOff
  else none

/-- `get_mmap_comparator` of `estimator.c` (lines 1668-1683). -/
def get_mmap_comparator (buf : List Char) : Option mmap_comparator :=
  if buf = "=".toList then some CompEquals
  else if buf = ">".toList then some CompGreaterThan
  else if buf = "<".toList then some CompLessThan
  else none

/-- Value of a hexadecimal digit character; `none` when the character is not
one (`isxdigit` fails). -/
def digit_val (c : Char) : Option Nat :=
  if '0' ≤ c ∧ c ≤ '9' then some (c.toNat - '0'.toNat)
  else if 'a' ≤ c ∧ c ≤ 'f' then some (c.toNat - 'a'.toNat + 10)
  else if 'A' ≤ c ∧ c ≤ 'F' then some (c.toNat - 'A'.toNat + 10)
  else none

/-- The digit-accumulation loop of the kernel's `_parse_integer`
(lib/kstrtox.c, external library): consume digits valid in `base`, returning
the accumulated value, the number of digits consumed, and the unconsumed
rest.  The value is accumulated exactly; the kernel's overflow flag is the
final check against `2^64` in `kstrtoull` below. -/
def parse_int_go (base : Nat) : List Char → Nat → Nat → Nat × Nat × List Char
  | [], acc, n => (acc, n, [])
  | c :: cs, acc, n =>
    match digit_val c with
    | some d =>
      if d < base then parse_int_go base cs (acc * base + d) (n + 1)
      else (acc, n, c :: cs)
    | none => (acc, n, c :: cs)

/-- Kernel `kstrtoull(s, 0, &res)` (lib/kstrtox.c, external library) on a
NUL-terminated token: base 16 after a `0x`/`0X` prefix with a following hex
digit, base 8 after a bare leading `0`, else base 10; at least one digit; at
most one trailing newline; error on any other trailing character or on
overflow past `2^64 - 1`. -/
def kstrtoull (s : List Char) : Option Nat :=
  let hex_prefix : Bool :=
    match s with
    | '0' :: c2 :: c3 :: _ => ((c2 == 'x' || c2 == 'X') && (digit_val c3).isSome)
    | _ => false
  let base := if hex_prefix then 16 else if s.head? = some '0' then 8 else 10
  let s1 := if hex_prefix then s.drop 2 else s
  let r := parse_int_go base s1 0 0
  if r.2.1 = 0 then none
  else
    let rest := match r.2.2 with
      | '\n' :: tl => tl
      | tl => tl
    if rest = [] then (if r.1 < U64 then some r.1 else none) else none

/-- `mmap_filter_read_comparison` of `estimator.c` (lines 1685-1727): pull
quantity, comparator and value off the comma-separated token, failing (the C
`return -1`) when a piece is missing or does not parse.  Returns the parsed
comparison and the updated token pointer. -/
def mmap_filter_read_comparison (tok : List Char) :
    Option (mmap_comparison × Option (List Char)) :=
  let q := strsep ',' tok
  match get_mmap_quantity q.1 with
  | none => none
  | some quant =>
    match q.2 with
    | none => none
    | some t1 =>
      let c := strsep ',' t1
      match get_mmap_comparator c.1 with
      | none => none
      | some comp =>
        match c.2 with
        | none => none
        | some t2 =>
          let v := strsep ',' t2
          match kstrtoull v.1 with
          | none => none
          | some value => some (⟨quant, comp, value⟩, v.2)

/-- A successfully parsed comparison strictly shrinks the remaining token. -/
theorem read_comparison_length (tok t' : List Char) (c : mmap_comparison)
    (h : mmap_filter_read_comparison tok = some (c, some t')) :
    t'.length < tok.length := by
  simp only [mmap_filter_read_comparison] at h
  split at h
  · exact absurd h (by simp)
  · split at h
    · exact absurd h (by simp)
    · rename_i t1 h1
      split at h
      · exact absurd h (by simp)
      · split at h
        · exact absurd h (by simp)
        · rename_i t2 h2
          split at h
          · exact absurd h (by simp)
          · simp at h
            have l1 : t1.length < tok.length := strsep_rest_length ',' tok t1 h1
            have l2 : t2.length < t1.length := strsep_rest_length ',' t1 t2 h2
            have l3 : t'.length < t2.length := by
              apply strsep_rest_length ',' t2
              rw [h.2]
            omega

/-- The comparison-reading loop of `mmap_filters_write` (lines 1838-1857),
with its termination measure made explicit: every parsed comparison strictly
shrinks the remaining token (`read_comparison_length`), so the recursion is
bounded by the token length; the `fuel = 0` arm is unreachable for the bound
the wrapper below supplies (`parse_comparisons_go_fuel`). -/
def parse_comparisons_go (fuel : Nat) (tok : Option (List Char))
    (acc : List mmap_comparison) : Option (List mmap_comparison) :=
  match tok with
  | none => some acc
  | some t =>
    if t = [] then some acc
    else
      match fuel with
      | 0 => none
      | fuel + 1 =>
        match mmap_filter_read_comparison t with
        | none => none
        | some (c, tok') => parse_comparisons_go fuel tok' (acc ++ [c])

/-- The comparison-reading loop of `mmap_filters_write` (lines 1838-1857):
read comparisons while the token pointer is non-NULL and the remaining text
non-empty; a malformed comparison invalidates the whole filter. -/
def parse_comparisons (tok : Option (List Char)) (acc : List mmap_comparison) :
    Option (List mmap_comparison) :=
  parse_comparisons_go (match tok with | none => 0 | some t => t.length + 1) tok acc

/-- The fuel bound of `parse_comparisons` is irrelevant once it exceeds the
remaining token length, so the wrapper computes the loop's true fixpoint:
the `fuel = 0` arm of `parse_comparisons_go` is never taken. -/
theorem parse_comparisons_go_fuel :
    ∀ (n : Nat) (m : Nat) (tok : Option (List Char)) (acc : List mmap_comparison),
      (match tok with | none => 0 | some t => t.length) < n →
      (match tok with | none => 0 | some t => t.length) < m →
      parse_comparisons_go n tok acc = parse_comparisons_go m tok acc := by
  intro n
  induction n with
  | zero => intro m tok acc hn _; exact absurd hn (by omega)
  | succ n ih =>
    intro m tok acc hn hm
    cases tok with
    | none => cases m with
      | zero => exact absurd hm (by omega)
      | succ m => rfl
    | some t =>
      by_cases ht : t = []
      · cases m with
        | zero => exact absurd hm (by simp [ht] at hm)
        | succ m => simp [parse_comparisons_go, ht]
      · have htlen : 1 ≤ t.length := by
          cases t with
          | nil => exact absurd rfl ht
          | cons a as => simp
        have hn2 : t.length < n + 1 := hn
        cases m with
        | zero => exact absurd hm (by omega)
        | succ m =>
          have hm2 : t.length < m + 1 := hm
          simp only [parse_comparisons_go, if_neg ht]
          cases hrc : mmap_filter_read_comparison t with
          | none => rfl
          | some p =>
            obtain ⟨c, tok'⟩ := p
            cases tok' with
            | none =>
              exact ih m none (acc ++ [c]) (show 0 < n by omega) (show 0 < m by omega)
            | some t' =>
              have ht' := read_comparison_length t t' c hrc
              exact ih m (some t') (acc ++ [c])
                (show t'.length < n by omega) (show t'.length < m by omega)

/-- The per-line parse of the filter-reading loop of `mmap_filters_write`
(lines 1797-1861): policy, section, benefit, then the comparisons.  `none`
is any of the `break`s that abandon the line. -/
def parse_filter (tok0 : List Char) : Option mmap_filter :=
  let p := strsep ',' tok0
  match get_mm_policy p.1 with
  | none => none
  | some policy =>
    match p.2 with
    | none => none
    | some t1 =>
      let sct := strsep ',' t1
      match get_memory_section sct.1 with
      | none => none
      | some sect =>
        match sct.2 with
        | none => none
        | some t2 =>
          let b := strsep ',' t2
          match kstrtoull b.1 with
          | none => none
          | some benefit =>
            match parse_comparisons b.2 [] with
            | none => none
            | some comps => some ⟨sect, policy, benefit, comps⟩

/-- The line loop of `mmap_filters_write` (lines 1786-1894): split on
newlines; a token is processed only when a newline terminated it (the loop
guard is the NULL-ness of the outer `strsep` pointer, so the trailing
piece of a buffer that does not end in a newline is never parsed); an empty
or malformed line stops the loop; on exit, `-EINVAL` (= -22) if no filter
was accepted, else the byte count of the accepted lines including their
newlines. -/
def mmap_filters_write_loop (input : List Char) (bytes_read : Nat) :
    Except Int Nat :=
  match h : strsep '\n' input with
  | (_, none) => if bytes_read = 0 then .error (-22) else .ok bytes_read
  | (tok, some rest) =>
    if tok = [] then (if bytes_read = 0 then .error (-22) else .ok bytes_read)
    else
      match parse_filter tok with
      | none => if bytes_read = 0 then .error (-22) else .ok bytes_read
      | some _ => mmap_filters_write_loop rest (bytes_read + (tok.length + 1))
termination_by input.length
decreasing_by
  have : (strsep '\n' input).2 = some rest := by rw [h]
  have := strsep_rest_length '\n' input rest this
  omega

/-- `mmap_filters_write` of `estimator.c` (lines 1729-1911), restricted to
its parsing contract: the returned value is the accepted byte count or the
error code. -/
def mmap_filters_write (input : List Char) : Except Int Nat :=
  mmap_filters_write_loop input 0

/-- A concrete environment snapshot used by the concrete evaluations below:
no free huge pages, no external estimators, idle system, default tunables,
unregistered process. -/
def env0 : estimator_env :=
  ⟨free_huge_page_status.fhps_none, none, 0, 1, 0, 10, 3000, none, none⟩

/-- A concrete all-zero counter state for the concrete evaluations below. -/
def stats0 : econ_stats := ⟨0, 0, 0, 0, 0, 0⟩

/-- The in-order sequence is strictly sorted by `start`: the search-tree
property of the store. -/
def sorted_starts (l : List profile_range) : Prop :=
  l.Pairwise (fun a b => a.start < b.start)

/-- No two stored ranges overlap. -/
def pairwise_disjoint (l : List profile_range) : Prop :=
  l.Pairwise (fun a b => ranges_overlap a b = false)

/-- The store invariant: search-tree order, no overlap between stored
ranges, and every stored range non-empty. -/
def store_inv (t : Rbt) : Prop :=
  sorted_starts (inorder t) ∧ pairwise_disjoint (inorder t) ∧
    ∀ r ∈ inorder t, r.start < r.stop

/-- Ordered insertion into the in-order sequence: the list-level effect of
the insertion descent when no start tie occurs. -/
def insert_sorted (x : profile_range) : List profile_range → List profile_range
  | [] => [x]
  | r :: rest => if x.start < r.start then x :: r :: rest else r :: insert_sorted x rest

/-- A sequence of newline-terminated lines, as one character buffer. -/
def joinLines (lines : List (List Char)) : List Char :=
  lines.foldr (fun l acc => l ++ '\n' :: acc) []

/-!  Theorems.  One theorem per claim of the specification, preceded by the
helper lemmas the proofs share. -/

/-- C1: `mm_decide` returns true for every cost-delta when the global mode
is 0 (off); when the mode is 1 (on) it returns true iff `benefit > cost`
strictly, so equal benefit and cost yield false. -/
theorem mm_decide_mode_semantics :
    ∀ (cost : mm_cost_delta) (s : econ_stats),
      (mm_decide 0 cost s).1 = true ∧
      ((mm_decide 1 cost s).1 = true ↔ cost.cost < cost.benefit) ∧
      (∀ (v : Nat) (e : extra_val), (mm_decide 1 ⟨v, v, e⟩ s).1 = false) := by
  intro cost s
  refine ⟨by simp [mm_decide], ?_, ?_⟩
  · by_cases hc : cost.cost < cost.benefit <;> simp [mm_decide, hc]
  · intro v e; simp [mm_decide]

/-- C10: every `mm_decide` call, in every mode, bumps the decision counter
by exactly one (`u64` increment); the yes counter moves only in mode 1 on a
true decision; mode 0 returns true and leaves the yes counter alone; no
other counter changes. -/
theorem mm_decide_counter_frame :
    ∀ (mode : Int) (cost : mm_cost_delta) (s : econ_stats),
      ((mm_decide mode cost s).2.mm_econ_num_decisions
          = uadd s.mm_econ_num_decisions 1) ∧
      ((mm_decide mode cost s).2.mm_econ_num_decisions_yes
          = if mode = 1 ∧ (mm_decide mode cost s).1 = true
            then uadd s.mm_econ_num_decisions_yes 1
            else s.mm_econ_num_decisions_yes) ∧
      ((mm_decide 0 cost s).1 = true ∧
        (mm_decide 0 cost s).2.mm_econ_num_decisions_yes
          = s.mm_econ_num_decisions_yes) ∧
      ((mm_decide mode cost s).2.mm_econ_num_estimates
          = s.mm_econ_num_estimates) ∧
      ((mm_decide mode cost s).2.mm_econ_num_hp_promotions
          = s.mm_econ_num_hp_promotions) ∧
      ((mm_decide mode cost s).2.mm_econ_num_async_compaction
          = s.mm_econ_num_async_compaction) ∧
      ((mm_decide mode cost s).2.mm_econ_num_async_prezeroing
          = s.mm_econ_num_async_prezeroing) := by
  intro mode cost s
  by_cases h0 : mode = 0
  · subst h0; simp [mm_decide]
  · by_cases h1 : mode = 1
    · subst h1
      by_cases hc : cost.cost < cost.benefit <;> simp [mm_decide, hc]
    · simp [mm_decide, h0, h1]

/-- C7: the lock-contention step adds exactly
`(prezero_n - nfree) * critical_section_cost` to the cost when
`prezero_n > nfree` and 0 otherwise, with
`nfree = contention_ms * freq_mhz * 1000 / critical_section_cost`, all in
exact `u64` arithmetic. -/
theorem lock_contention_adds_exact (g : estimator_env) (action : mm_action)
    (cost : mm_cost_delta) :
    mm_estimate_async_prezeroing_lock_contention_cost g action cost
      = { cost with cost :=
            (cost.cost +
              (if g.mm_econ_contention_ms * g.mm_econ_freq_mhz * 1000 % U64 / (150 * 2)
                  < action.prezero_n
               then (action.prezero_n
                      - g.mm_econ_contention_ms * g.mm_econ_freq_mhz * 1000 % U64 / (150 * 2))
                      * (150 * 2)
               else 0)) % U64 } := by
  have hU : U64 = 18446744073709551616 := by norm_num [U64]
  simp only [mm_estimate_async_prezeroing_lock_contention_cost, umul, uadd]
  have hnf : g.mm_econ_contention_ms * g.mm_econ_freq_mhz % U64 * 1000 % U64
      = g.mm_econ_contention_ms * g.mm_econ_freq_mhz * 1000 % U64 := by
    conv_rhs => rw [Nat.mul_mod]
    norm_num [U64]
  rw [hnf]
  congr 1
  by_cases hif : g.mm_econ_contention_ms * g.mm_econ_freq_mhz * 1000 % U64 / (150 * 2)
      < action.prezero_n
  · simp only [hif, if_true]
    generalize (action.prezero_n
      - g.mm_econ_contention_ms * g.mm_econ_freq_mhz * 1000 % U64 / (150 * 2)) = d
    rw [hU]
    omega
  · simp only [hif, if_false]
    simp

/-- C3 (amended): `mm_estimate_changes` on an action kind that is none of
the known kinds leaves the whole cost-delta untouched (the `default:` arm
only logs). -/
theorem estimate_unknown_action_preserves_cost (g : estimator_env)
    (action : mm_action) (cost : mm_cost_delta) (s : econ_stats)
    (h0 : action.action ≠ MM_ACTION_NONE)
    (h1 : action.action ≠ MM_ACTION_PROMOTE_HUGE)
    (h2 : action.action ≠ MM_ACTION_DEMOTE_HUGE)
    (h3 : action.action ≠ MM_ACTION_RUN_DEFRAG)
    (h4 : action.action ≠ MM_ACTION_RUN_PROMOTION)
    (h5 : action.action ≠ MM_ACTION_RUN_PREZEROING)
    (h6 : action.action ≠ MM_ACTION_ALLOC_RECLAIM)
    (h7 : action.action ≠ MM_ACTION_EAGER_PAGING) :
    (mm_estimate_changes g action cost s).1 = cost := by
  simp [mm_estimate_changes, h0, h1, h2, h3, h4, h5, h6, h7]

/-- Witness for the amended C3 theorem at the concrete unknown kind 999
with a nonzero incoming cost-delta. -/
theorem estimate_unknown_action_preserves_cost_witness :
    (mm_estimate_changes env0 ⟨999, 0, 0, 0⟩ ⟨7, 9, extra_val.num 0⟩ stats0).1
      = ⟨7, 9, extra_val.num 0⟩ :=
  estimate_unknown_action_preserves_cost env0 ⟨999, 0, 0, 0⟩ ⟨7, 9, extra_val.num 0⟩
    stats0 (by decide) (by decide) (by decide) (by decide) (by decide) (by decide)
    (by decide) (by decide)

/-- Counterexample to C3 as stated: at the unknown action kind 999 with the
incoming cost-delta `{cost := 7, benefit := 9}`, `mm_estimate_changes` does
not return zero cost and zero benefit — it leaves both fields unchanged. -/
theorem estimate_unknown_action_not_zeroed :
    (mm_estimate_changes env0 ⟨999, 0, 0, 0⟩ ⟨7, 9, extra_val.num 0⟩ stats0).1.cost = 7 ∧
    (mm_estimate_changes env0 ⟨999, 0, 0, 0⟩ ⟨7, 9, extra_val.num 0⟩ stats0).1.benefit = 9 ∧
    ¬((mm_estimate_changes env0 ⟨999, 0, 0, 0⟩ ⟨7, 9, extra_val.num 0⟩ stats0).1.cost = 0 ∧
      (mm_estimate_changes env0 ⟨999, 0, 0, 0⟩ ⟨7, 9, extra_val.num 0⟩ stats0).1.benefit = 0) := by
  decide

/-- C4: inserting `[10,20)` with benefit `B` into the store holding exactly
`[5,15)` and `[18,25)` (any benefits) evicts both and leaves exactly
`[10,20)` with benefit `B`. -/
theorem insert_evicts_both_overlapping :
    ∀ (b1 b2 B : Nat),
      Rbt.inorder (profile_range_insert
          (profile_range_insert Rbt.leaf ⟨5, 15, b1⟩) ⟨18, 25, b2⟩)
        = [⟨5, 15, b1⟩, ⟨18, 25, b2⟩] ∧
      Rbt.inorder (profile_range_insert (profile_range_insert
          (profile_range_insert Rbt.leaf ⟨5, 15, b1⟩) ⟨18, 25, b2⟩) ⟨10, 20, B⟩)
        = [⟨10, 20, B⟩] := by
  intro b1 b2 B
  constructor <;>
    simp [profile_range_insert, remove_overlapping_ranges, first_overlapping,
      ranges_overlap, suffFrom, rb_erase, treeOfSorted, rb_insert_descent,
      Rbt.inorder, List.takeWhile, List.filter]

/-- Counterexample to C9 as stated: on the store holding only the empty
range `[5,5)` (benefit 7), inserting `[5,5)` (benefit 9) leaves a same-start
range in the tree after eviction, yet the insert is not rejected: the new
node is linked in place of the tie node's subtree, changing the store. -/
theorem insert_tie_not_rejected :
    Rbt.inorder (remove_overlapping_ranges
        (Rbt.node Rbt.leaf ⟨5, 5, 7⟩ Rbt.leaf) ⟨5, 5, 9⟩) = [⟨5, 5, 7⟩] ∧
    profile_range_insert (Rbt.node Rbt.leaf ⟨5, 5, 7⟩ Rbt.leaf) ⟨5, 5, 9⟩
        = Rbt.node Rbt.leaf ⟨5, 5, 9⟩ Rbt.leaf ∧
    profile_range_insert (Rbt.node Rbt.leaf ⟨5, 5, 7⟩ Rbt.leaf) ⟨5, 5, 9⟩
        ≠ Rbt.node Rbt.leaf ⟨5, 5, 7⟩ Rbt.leaf := by
  decide

/-!  Store-invariant machinery: correctness of the eviction scan and of the
ordered insert, leading to the non-overlap invariant (C2) and its
corollaries. -/

/-- Overlap is symmetric (its two disjuncts swap). -/
theorem ranges_overlap_comm (a b : profile_range) :
    ranges_overlap a b = ranges_overlap b a := by
  unfold ranges_overlap
  exact Bool.or_comm _ _

/-- Overlap as arithmetic on the four bounds. -/
theorem ranges_overlap_iff (a b : profile_range) :
    ranges_overlap a b = true ↔
      ((a.start ≤ b.start ∧ b.start < a.stop) ∨
       (b.start ≤ a.start ∧ a.start < b.stop)) := by
  simp [ranges_overlap]

/-- The spec's overlap formula implies the code's overlap predicate, and
they agree on non-empty ranges. -/
theorem spec_overlap_overlap (a b : profile_range)
    (h : ranges_overlap a b = false) : ¬ spec_overlap a b := by
  rw [← Bool.not_eq_true, ranges_overlap_iff] at h
  unfold spec_overlap
  omega

/-- A range with the start of a non-empty `x` overlaps `x`. -/
theorem overlap_of_same_start (x q : profile_range) (hx : x.start < x.stop)
    (h : q.start = x.start) : ranges_overlap x q = true := by
  rw [ranges_overlap_iff]
  omega

/-- A range contained in `sup` overlaps only what `sup` overlaps. -/
theorem overlap_mono (q sup sub : profile_range) (hs : sup.start ≤ sub.start)
    (he : sub.stop ≤ sup.stop) (hne : sub.start < sub.stop)
    (h : ranges_overlap q sub = true) : ranges_overlap q sup = true := by
  rw [ranges_overlap_iff] at h ⊢
  omega

/-- Skipping a left subtree during the eviction descent is safe: anything
left of a node `r` that sits entirely left of `x` is also clear of `x`. -/
theorem overlap_left_skip (x r q : profile_range)
    (hq : q.start < q.stop) (hqr : ranges_overlap q r = false)
    (hqs : q.start < r.start) (hxr : ranges_overlap x r = false)
    (hxs : r.start ≤ x.start) : ranges_overlap x q = false := by
  rw [← Bool.not_eq_true, ranges_overlap_iff] at hqr hxr ⊢
  omega

/-- Skipping a right subtree during the eviction descent is safe. -/
theorem overlap_right_skip (x r q : profile_range)
    (hxr : ranges_overlap x r = false) (hxs : x.start < r.start)
    (hqs : r.start < q.start) : ranges_overlap x q = false := by
  rw [← Bool.not_eq_true, ranges_overlap_iff] at hxr ⊢
  omega

/-- Ranges overlapping a non-empty `x` have no gaps: if `a` and `c` overlap
`x` then any disjoint range between them does too. -/
theorem overlap_between (x a b c : profile_range) (hx : x.start < x.stop)
    (h1 : a.start ≤ b.start) (h2 : b.start ≤ c.start)
    (hab : ranges_overlap a b = false)
    (hxa : ranges_overlap x a = true) (hxc : ranges_overlap x c = true) :
    ranges_overlap x b = true := by
  rw [← Bool.not_eq_true, ranges_overlap_iff] at hab
  rw [ranges_overlap_iff] at hxa hxc ⊢
  omega

/-- Decomposition of a pairwise property of a node's in-order sequence. -/
theorem pairwise_node {P : profile_range → profile_range → Prop}
    {l rt : Rbt} {r : profile_range}
    (h : (inorder (Rbt.node l r rt)).Pairwise P) :
    (inorder l).Pairwise P ∧ (inorder rt).Pairwise P ∧
    (∀ a ∈ inorder l, P a r) ∧ (∀ b ∈ inorder rt, P r b) ∧
    (∀ a ∈ inorder l, ∀ b ∈ inorder rt, P a b) := by
  rw [Rbt.inorder, List.pairwise_append] at h
  obtain ⟨hl, hr, hcross⟩ := h
  rw [List.pairwise_cons] at hr
  exact ⟨hl, hr.2, fun a ha => hcross a ha r (by simp),
    hr.1, fun a ha b hb => hcross a ha b (by simp [hb])⟩

/-- The store invariant restricted to the left subtree. -/
theorem store_inv_left {l rt : Rbt} {r : profile_range}
    (h : store_inv (Rbt.node l r rt)) : store_inv l := by
  obtain ⟨hs, hd, hne⟩ := h
  exact ⟨(pairwise_node hs).1, (pairwise_node hd).1,
    fun q hq => hne q (by simp [Rbt.inorder, hq])⟩

/-- The store invariant restricted to the right subtree. -/
theorem store_inv_right {l rt : Rbt} {r : profile_range}
    (h : store_inv (Rbt.node l r rt)) : store_inv rt := by
  obtain ⟨hs, hd, hne⟩ := h
  exact ⟨(pairwise_node hs).2.1, (pairwise_node hd).2.1,
    fun q hq => hne q (by simp [Rbt.inorder, hq])⟩

/-- If the eviction descent records no overlap, nothing stored overlaps the
new range. -/
theorem first_overlapping_none (x : profile_range) :
    ∀ (t : Rbt), store_inv t → first_overlapping t x = none →
      ∀ q ∈ inorder t, ranges_overlap x q = false := by
  intro t
  induction t with
  | leaf => intro _ _ q hq; simp [Rbt.inorder] at hq
  | node l r rt ihl ihr =>
    intro hinv h q hq
    have hinvl := store_inv_left hinv
    have hinvr := store_inv_right hinv
    obtain ⟨hs, hd, hne⟩ := hinv
    rw [first_overlapping] at h
    by_cases hxr : ranges_overlap x r = true
    · rw [if_pos hxr] at h; exact absurd h (by simp)
    · rw [if_neg hxr] at h
      rw [Bool.not_eq_true] at hxr
      have hq' := hq
      rw [Rbt.inorder] at hq'
      rcases List.mem_append.mp hq' with hql | hqr
      · by_cases hlt : x.start < r.start
        · rw [if_pos hlt] at h
          exact ihl hinvl h q hql
        · push_neg at hlt
          exact overlap_left_skip x r q (hne q hq) ((pairwise_node hd).2.2.1 q hql)
            ((pairwise_node hs).2.2.1 q hql) hxr hlt
      · rcases List.mem_cons.mp hqr with hq0 | hqrt
        · subst hq0; exact hxr
        · by_cases hlt : x.start < r.start
          · exact overlap_right_skip x r q hxr hlt ((pairwise_node hs).2.2.2.1 q hqrt)
          · rw [if_neg hlt] at h
            exact ihr hinvr h q hqrt

/-- If the eviction descent records node `w`, then `w` overlaps the new
range and is the stored overlap of least start: everything with a smaller
start is clear. -/
theorem first_overlapping_some (x : profile_range) :
    ∀ (t : Rbt) (w : profile_range), store_inv t →
      first_overlapping t x = some w →
      w ∈ inorder t ∧ ranges_overlap x w = true ∧
        ∀ q ∈ inorder t, q.start < w.start → ranges_overlap x q = false := by
  intro t
  induction t with
  | leaf => intro w _ h; simp [first_overlapping] at h
  | node l r rt ihl ihr =>
    intro w hinv h
    have hinvl := store_inv_left hinv
    have hinvr := store_inv_right hinv
    obtain ⟨hs, hd, hne⟩ := hinv
    rw [first_overlapping] at h
    by_cases hxr : ranges_overlap x r = true
    · rw [if_pos hxr] at h
      cases hl : first_overlapping l x with
      | none =>
        rw [hl] at h
        simp only [Option.getD_none, Option.some.injEq] at h
        subst h
        refine ⟨by simp [Rbt.inorder], hxr, ?_⟩
        intro q hq hqlt
        have hq' := hq
        rw [Rbt.inorder] at hq'
        rcases List.mem_append.mp hq' with hql | hqr
        · exact first_overlapping_none x l hinvl hl q hql
        · rcases List.mem_cons.mp hqr with hq0 | hqrt
          · subst hq0; exact absurd hqlt (by omega)
          · have := (pairwise_node hs).2.2.2.1 q hqrt
            exact absurd hqlt (by omega)
      | some w' =>
        rw [hl] at h
        simp only [Option.getD_some, Option.some.injEq] at h
        subst h
        obtain ⟨hmem, hov, hmin⟩ := ihl w' hinvl hl
        have hwr : w'.start < r.start := (pairwise_node hs).2.2.1 w' hmem
        refine ⟨by simp [Rbt.inorder, hmem], hov, ?_⟩
        intro q hq hqlt
        have hq' := hq
        rw [Rbt.inorder] at hq'
        rcases List.mem_append.mp hq' with hql | hqr
        · exact hmin q hql hqlt
        · rcases List.mem_cons.mp hqr with hq0 | hqrt
          · subst hq0; exact absurd hqlt (by omega)
          · have := (pairwise_node hs).2.2.2.1 q hqrt
            exact absurd hqlt (by omega)
    · rw [if_neg hxr] at h
      rw [Bool.not_eq_true] at hxr
      by_cases hlt : x.start < r.start
      · rw [if_pos hlt] at h
        obtain ⟨hmem, hov, hmin⟩ := ihl w hinvl h
        have hwr : w.start < r.start := (pairwise_node hs).2.2.1 w hmem
        refine ⟨by simp [Rbt.inorder, hmem], hov, ?_⟩
        intro q hq hqlt
        have hq' := hq
        rw [Rbt.inorder] at hq'
        rcases List.mem_append.mp hq' with hql | hqr
        · exact hmin q hql hqlt
        · rcases List.mem_cons.mp hqr with hq0 | hqrt
          · subst hq0; exact absurd hqlt (by omega)
          · have := (pairwise_node hs).2.2.2.1 q hqrt
            exact absurd hqlt (by omega)
      · rw [if_neg hlt] at h
        push_neg at hlt
        obtain ⟨hmem, hov, hmin⟩ := ihr w hinvr h
        refine ⟨by simp [Rbt.inorder, hmem], hov, ?_⟩
        intro q hq hqlt
        have hq' := hq
        rw [Rbt.inorder] at hq'
        rcases List.mem_append.mp hq' with hql | hqr
        · exact overlap_left_skip x r q (hne q hq) ((pairwise_node hd).2.2.1 q hql)
            ((pairwise_node hs).2.2.1 q hql) hxr hlt
        · rcases List.mem_cons.mp hqr with hq0 | hqrt
          · subst hq0; exact hxr
          · exact hmin q hqrt hqlt

/-- Splitting a list at a member according to `suffFrom`. -/
theorem suffFrom_spec (w : profile_range) :
    ∀ (l : List profile_range), w ∈ l →
      ∃ pre post, l = pre ++ w :: post ∧ suffFrom l w = w :: post ∧ w ∉ pre := by
  intro l
  induction l with
  | nil => intro h; simp at h
  | cons r rest ih =>
    intro hw
    by_cases hr : r = w
    · subst hr
      exact ⟨[], rest, rfl, by simp [suffFrom], by simp⟩
    · have hw' : w ∈ rest := by
        rcases List.mem_cons.mp hw with h | h
        · exact absurd h.symm hr
        · exact h
      obtain ⟨pre, post, heq, hsuff, hpre⟩ := ih hw'
      refine ⟨r :: pre, post, by simp [heq], ?_, ?_⟩
      · rw [suffFrom, if_neg hr, hsuff]
      · intro hmem
        rcases List.mem_cons.mp hmem with h | h
        · exact hr h.symm
        · exact hpre h

/-- Within a sorted, pairwise-disjoint run whose head overlaps the
non-empty range `x`, the overlapping elements form a prefix: the erase
loop's `takeWhile` walk reaches every one of them. -/
theorem overlap_run_covers (x : profile_range) (hx : x.start < x.stop) :
    ∀ (post : List profile_range) (w : profile_range),
      sorted_starts (w :: post) → pairwise_disjoint (w :: post) →
      ranges_overlap x w = true →
      ∀ q ∈ w :: post, ranges_overlap x q = true →
        q ∈ (w :: post).takeWhile (fun r => ranges_overlap x r) := by
  intro post
  induction post with
  | nil =>
    intro w _ _ hw q hq _
    rw [List.mem_singleton] at hq
    subst hq
    simp [List.takeWhile_cons, hw]
  | cons p rest ih =>
    intro w hs hd hw q hq hov
    rw [List.takeWhile_cons, if_pos (by simp [hw])]
    rw [sorted_starts, List.pairwise_cons] at hs
    rw [pairwise_disjoint, List.pairwise_cons] at hd
    rcases List.mem_cons.mp hq with hq0 | hq'
    · subst hq0; exact List.mem_cons_self _ _
    · by_cases hp : ranges_overlap x p = true
      · exact List.mem_cons_of_mem _ (ih p hs.2 hd.2 hp q hq' hov)
      · exfalso
        rcases List.mem_cons.mp hq' with hq0 | hqrest
        · subst hq0; exact hp hov
        · have h1 : w.start ≤ p.start := le_of_lt (hs.1 p (by simp))
          have h2 : p.start ≤ q.start := by
            have := (List.pairwise_cons.mp hs.2).1 q hqrest
            omega
          exact hp (overlap_between x w p q hx h1 h2 (hd.1 p (by simp)) hw hov)

/-- Uniqueness of starts in a sorted sequence. -/
theorem sorted_starts_unique :
    ∀ (l : List profile_range), sorted_starts l →
      ∀ a ∈ l, ∀ b ∈ l, a.start = b.start → a = b := by
  intro l
  induction l with
  | nil => simp
  | cons r rest ih =>
    intro hs a ha b hb heq
    rw [sorted_starts, List.pairwise_cons] at hs
    rcases List.mem_cons.mp ha with ha0 | ha' <;>
      rcases List.mem_cons.mp hb with hb0 | hb'
    · rw [ha0, hb0]
    · subst ha0
      exact absurd heq (by have := hs.1 b hb'; omega)
    · subst hb0
      exact absurd heq (by have := hs.1 a ha'; omega)
    · exact ih hs.2 a ha' b hb' heq

/-- In-order sequence of the canonical rebuild. -/
theorem inorder_treeOfSorted :
    ∀ (l : List profile_range), inorder (treeOfSorted l) = l := by
  intro l
  induction l with
  | nil => rfl
  | cons a l ih => simp [treeOfSorted, Rbt.inorder] at ih ⊢; exact ih

/-- In-order effect of the modelled `rb_erase`. -/
theorem inorder_rb_erase (t : Rbt) (key : Nat) :
    inorder (rb_erase t key) = (inorder t).filter (fun r => r.start ≠ key) := by
  rw [rb_erase, inorder_treeOfSorted]

/-- Composition of two filters. -/
theorem filter_filter_helper (p q : profile_range → Bool) :
    ∀ (l : List profile_range),
      (l.filter p).filter q = l.filter (fun r => p r && q r) := by
  intro l
  induction l with
  | nil => rfl
  | cons a l ih =>
    by_cases hp : p a <;> by_cases hq : q a <;>
      simp [List.filter_cons, hp, hq, ih]

/-- In-order effect of erasing a whole run of nodes by start key. -/
theorem inorder_fold_erase :
    ∀ (run : List profile_range) (t : Rbt),
      inorder (run.foldl (fun acc r => rb_erase acc r.start) t)
        = (inorder t).filter
            (fun r => run.all (fun q => decide (r.start ≠ q.start))) := by
  intro run
  induction run with
  | nil =>
    intro t
    simp [List.filter_eq_self]
  | cons a run ih =>
    intro t
    rw [List.foldl_cons, ih, inorder_rb_erase, filter_filter_helper]
    apply List.filter_congr
    intro r _
    simp [List.all_cons]

/-- Eviction is exact: `remove_overlapping_ranges` removes precisely the
stored ranges that overlap the (non-empty) new range. -/
theorem inorder_remove_overlapping (t : Rbt) (x : profile_range)
    (hinv : store_inv t) (hx : x.start < x.stop) :
    inorder (remove_overlapping_ranges t x)
      = (inorder t).filter (fun r => !(ranges_overlap x r)) := by
  obtain ⟨hs, hd, hne⟩ := hinv
  cases hfo : first_overlapping t x with
  | none =>
    simp only [remove_overlapping_ranges, hfo]
    exact (List.filter_eq_self.mpr (fun q hq => by
      simp [first_overlapping_none x t ⟨hs, hd, hne⟩ hfo q hq])).symm
  | some w =>
    obtain ⟨hwmem, hwov, hwmin⟩ := first_overlapping_some x t w ⟨hs, hd, hne⟩ hfo
    obtain ⟨pre, post, heq, hsuff, hpre⟩ := suffFrom_spec w (inorder t) hwmem
    have hs_wpost : sorted_starts (w :: post) := by
      rw [sorted_starts] at hs ⊢
      rw [heq, List.pairwise_append] at hs
      exact hs.2.1
    have hd_wpost : pairwise_disjoint (w :: post) := by
      rw [pairwise_disjoint] at hd ⊢
      rw [heq, List.pairwise_append] at hd
      exact hd.2.1
    have hpre_small : ∀ q ∈ pre, q.start < w.start := by
      intro q hq
      rw [sorted_starts, heq, List.pairwise_append] at hs
      exact hs.2.2 q hq w (by simp)
    simp only [remove_overlapping_ranges, hfo, hsuff]
    rw [inorder_fold_erase]
    apply List.filter_congr
    intro r hr
    by_cases hov : ranges_overlap x r = true
    · -- r is evicted: it lies in the run, and its own start refutes `all`
      have hr_wpost : r ∈ w :: post := by
        rw [heq] at hr
        rcases List.mem_append.mp hr with hrp | hrw
        · exact absurd hov (by simp [hwmin r (by rw [heq]; simp [hrp]) (hpre_small r hrp)])
        · exact hrw
      have hr_run : r ∈ (w :: post).takeWhile (fun q => ranges_overlap x q) :=
        overlap_run_covers x hx post w hs_wpost hd_wpost hwov r hr_wpost hov
      rw [hov, Bool.not_true, Bool.eq_false_iff]
      intro hall
      have := List.all_eq_true.mp hall r hr_run
      simp at this
    · -- r survives: nothing in the run shares its start
      rw [Bool.not_eq_true] at hov
      rw [hov, Bool.not_false, List.all_eq_true]
      intro q hq
      have hq_wpost : q ∈ w :: post := (List.takeWhile_sublist _).mem hq
      have hq_ov : ranges_overlap x q = true := List.mem_takeWhile_imp hq
      simp only [decide_eq_true_eq]
      intro hstart
      have hq_t : q ∈ inorder t := by rw [heq]; exact List.mem_append_right _ hq_wpost
      have : r = q := sorted_starts_unique (inorder t) hs r hr q hq_t hstart
      rw [this] at hov
      rw [hov] at hq_ov
      exact absurd hq_ov (by simp)

/-- Ordered insertion permutes consing. -/
theorem insert_sorted_perm (x : profile_range) :
    ∀ (l : List profile_range), (insert_sorted x l).Perm (x :: l) := by
  intro l
  induction l with
  | nil => simp [insert_sorted]
  | cons r rest ih =>
    rw [insert_sorted]
    by_cases hlt : x.start < r.start
    · rw [if_pos hlt]
    · rw [if_neg hlt]
      exact (ih.cons r).trans (List.Perm.swap x r rest)

/-- Ordered insertion preserves strict sortedness when no start ties
exist. -/
theorem insert_sorted_sorted (x : profile_range) :
    ∀ (l : List profile_range), sorted_starts l →
      (∀ q ∈ l, q.start ≠ x.start) → sorted_starts (insert_sorted x l) := by
  intro l
  induction l with
  | nil => intro _ _; simp [insert_sorted, sorted_starts]
  | cons r rest ih =>
    intro hs hne
    rw [sorted_starts, List.pairwise_cons] at hs
    rw [insert_sorted]
    by_cases hlt : x.start < r.start
    · rw [if_pos hlt]
      rw [sorted_starts, List.pairwise_cons]
      refine ⟨?_, List.pairwise_cons.mpr ⟨hs.1, hs.2⟩⟩
      intro b hb
      rcases List.mem_cons.mp hb with hb0 | hb'
      · rw [hb0]; exact hlt
      · have := hs.1 b hb'; omega
    · rw [if_neg hlt]
      have hrx : r.start < x.start := by
        have := hne r (by simp); omega
      rw [sorted_starts, List.pairwise_cons]
      constructor
      · intro b hb
        rcases List.mem_cons.mp ((insert_sorted_perm x rest).mem_iff.mp hb) with hb0 | hb'
        · rw [hb0]; exact hrx
        · exact hs.1 b hb'
      · exact ih hs.2 (fun q hq => hne q (by simp [hq]))

/-- Insertion lands inside the left part when the key is smaller than the
split element. -/
theorem insert_sorted_append_left (x r : profile_range) (h : x.start < r.start) :
    ∀ (l1 l2 : List profile_range),
      insert_sorted x (l1 ++ r :: l2) = insert_sorted x l1 ++ r :: l2 := by
  intro l1 l2
  induction l1 with
  | nil => simp [insert_sorted, h]
  | cons a l1 ih =>
    by_cases hax : x.start < a.start <;> simp [insert_sorted, hax, ih]

/-- Insertion skips a prefix of smaller keys. -/
theorem insert_sorted_append_right (x : profile_range) :
    ∀ (l1 l2 : List profile_range), (∀ a ∈ l1, ¬ x.start < a.start) →
      insert_sorted x (l1 ++ l2) = l1 ++ insert_sorted x l2 := by
  intro l1 l2
  induction l1 with
  | nil => intro _; simp
  | cons a l1 ih =>
    intro hsm
    have ha : ¬ x.start < a.start := hsm a (by simp)
    simp only [List.cons_append, insert_sorted, if_neg ha, List.append_eq]
    rw [ih (fun b hb => hsm b (by simp [hb]))]

/-- In-order effect of the insertion descent when no start tie occurs: the
new node lands at its ordered position. -/
theorem inorder_rb_insert_descent :
    ∀ (t : Rbt) (x : profile_range), sorted_starts (inorder t) →
      (∀ q ∈ inorder t, q.start ≠ x.start) →
      inorder (rb_insert_descent t x) = insert_sorted x (inorder t) := by
  intro t
  induction t with
  | leaf => intro x _ _; simp [rb_insert_descent, Rbt.inorder, insert_sorted]
  | node l r rt ihl ihr =>
    intro x hs hne
    have hsl : sorted_starts (inorder l) := (pairwise_node hs).1
    have hsr : sorted_starts (inorder rt) := (pairwise_node hs).2.1
    rw [rb_insert_descent]
    by_cases h1 : x.start < r.start
    · rw [if_pos h1]
      rw [Rbt.inorder, Rbt.inorder,
        ihl x hsl (fun q hq => hne q (by simp [Rbt.inorder, hq])),
        insert_sorted_append_left x r h1]
    · rw [if_neg h1]
      by_cases h2 : r.start < x.start
      · rw [if_pos h2]
        rw [Rbt.inorder, Rbt.inorder,
          ihr x hsr (fun q hq => hne q (by simp [Rbt.inorder, hq]))]
        rw [insert_sorted_append_right x (inorder l) (r :: inorder rt)
          (fun a ha => by have := (pairwise_node hs).2.2.1 a ha; omega)]
        rw [insert_sorted, if_neg h1]
      · exact absurd (by omega : r.start = x.start) (hne r (by simp [Rbt.inorder]))

/-- `profile_range_insert` on a valid store with a non-empty new range:
the in-order result is the ordered insertion of the new range into the
surviving (non-overlapping) ranges, and the store invariant is
preserved. -/
theorem profile_range_insert_spec (t : Rbt) (x : profile_range)
    (hinv : store_inv t) (hx : x.start < x.stop) :
    inorder (profile_range_insert t x)
      = insert_sorted x ((inorder t).filter (fun r => !(ranges_overlap x r))) ∧
    store_inv (profile_range_insert t x) := by
  have hcrown := inorder_remove_overlapping t x hinv hx
  have hsf : sorted_starts (inorder (remove_overlapping_ranges t x)) := by
    rw [hcrown]; exact hinv.1.sublist (List.filter_sublist _)
  have hdf : pairwise_disjoint (inorder (remove_overlapping_ranges t x)) := by
    rw [hcrown]; exact hinv.2.1.sublist (List.filter_sublist _)
  have hclean : ∀ q ∈ inorder (remove_overlapping_ranges t x),
      ranges_overlap x q = false := by
    intro q hq
    rw [hcrown] at hq
    have hp := List.of_mem_filter hq
    simp at hp
    exact hp
  have hmem : ∀ q ∈ inorder (remove_overlapping_ranges t x), q ∈ inorder t := by
    intro q hq
    rw [hcrown] at hq
    exact (List.filter_sublist _).mem hq
  have hne' : ∀ q ∈ inorder (remove_overlapping_ranges t x),
      q.start ≠ x.start := by
    intro q hq heq
    have := overlap_of_same_start x q hx heq
    rw [hclean q hq] at this
    exact absurd this (by simp)
  have hins := inorder_rb_insert_descent (remove_overlapping_ranges t x) x hsf hne'
  have hmain : inorder (profile_range_insert t x)
      = insert_sorted x ((inorder t).filter (fun r => !(ranges_overlap x r))) := by
    rw [profile_range_insert, hins, hcrown]
  refine ⟨hmain, ?_, ?_, ?_⟩
  · rw [profile_range_insert, hins]
    exact insert_sorted_sorted x _ hsf hne'
  · rw [pairwise_disjoint, profile_range_insert, hins]
    rw [(insert_sorted_perm x _).pairwise_iff
      (fun h => by rw [ranges_overlap_comm]; exact h)]
    refine List.pairwise_cons.mpr ⟨hclean, hdf⟩
  · intro q hq
    rw [profile_range_insert, hins] at hq
    rcases List.mem_cons.mp ((insert_sorted_perm x _).mem_iff.mp hq) with hq0 | hq'
    · rw [hq0]; exact hx
    · exact hinv.2.2 q (hmem q hq')

/-- C2: starting from the empty store, any sequence of inserts of non-empty
ranges leaves the stored ranges pairwise non-overlapping (overlap in the
spec's sense: `a.start < b.end` and `b.start < a.end`). -/
theorem insert_sequence_non_overlap (rs : List profile_range)
    (hne : ∀ r ∈ rs, r.start < r.stop) :
    (inorder (rs.foldl profile_range_insert Rbt.leaf)).Pairwise
      (fun a b => ¬ spec_overlap a b) := by
  suffices h : store_inv (rs.foldl profile_range_insert Rbt.leaf) by
    exact h.2.1.imp (fun hab => spec_overlap_overlap _ _ hab)
  have hstep : ∀ (l : List profile_range) (t : Rbt), store_inv t →
      (∀ r ∈ l, r.start < r.stop) →
      store_inv (l.foldl profile_range_insert t) := by
    intro l
    induction l with
    | nil => intro t ht _; exact ht
    | cons a l ih =>
      intro t ht hl
      rw [List.foldl_cons]
      exact ih _ (profile_range_insert_spec t a ht (hl a (by simp))).2
        (fun r hr => hl r (by simp [hr]))
  exact hstep rs Rbt.leaf
    ⟨by simp [sorted_starts, Rbt.inorder], by simp [pairwise_disjoint, Rbt.inorder],
      by simp [Rbt.inorder]⟩ hne

/-- Witness for C2 at the concrete insert sequence `[5,15)`, `[18,25)`,
`[10,20)`. -/
theorem insert_sequence_non_overlap_witness :
    (∀ r ∈ ([⟨5, 15, 3⟩, ⟨18, 25, 4⟩, ⟨10, 20, 7⟩] : List profile_range),
        r.start < r.stop) ∧
    (inorder (([⟨5, 15, 3⟩, ⟨18, 25, 4⟩, ⟨10, 20, 7⟩] : List profile_range).foldl
        profile_range_insert Rbt.leaf)).Pairwise (fun a b => ¬ spec_overlap a b) :=
  ⟨by decide, insert_sequence_non_overlap _ (by decide)⟩

/-- C9 (amended): after eviction of everything overlapping a non-empty new
range, no surviving range shares its start (an equal-start range always
overlaps a non-empty range, so the tie arm of the descent is never reached),
and the insert leaves at most one range per start address. -/
theorem insert_unique_starts (t : Rbt) (x : profile_range)
    (hinv : store_inv t) (hx : x.start < x.stop) :
    (∀ q ∈ inorder (remove_overlapping_ranges t x), q.start ≠ x.start) ∧
    (inorder (profile_range_insert t x)).Pairwise
      (fun a b => a.start ≠ b.start) := by
  constructor
  · intro q hq heq
    rw [inorder_remove_overlapping t x hinv hx] at hq
    have hp := List.of_mem_filter hq
    rw [overlap_of_same_start x q hx heq] at hp
    exact absurd hp (by simp)
  · exact (profile_range_insert_spec t x hinv hx).2.1.imp (fun h => by omega)

/-- Witness for the amended C9 theorem on the concrete store
`{[5,15), [18,25)}` with the new range `[10,20)`. -/
theorem insert_unique_starts_witness :
    (store_inv (Rbt.node Rbt.leaf ⟨5, 15, 3⟩ (Rbt.node Rbt.leaf ⟨18, 25, 4⟩ Rbt.leaf)) ∧
      (10 : Nat) < 20) ∧
    ((∀ q ∈ inorder (remove_overlapping_ranges
          (Rbt.node Rbt.leaf ⟨5, 15, 3⟩ (Rbt.node Rbt.leaf ⟨18, 25, 4⟩ Rbt.leaf))
          ⟨10, 20, 7⟩), q.start ≠ (10 : Nat)) ∧
      (inorder (profile_range_insert
          (Rbt.node Rbt.leaf ⟨5, 15, 3⟩ (Rbt.node Rbt.leaf ⟨18, 25, 4⟩ Rbt.leaf))
          ⟨10, 20, 7⟩)).Pairwise (fun a b => a.start ≠ b.start)) :=
  ⟨⟨by unfold store_inv sorted_starts pairwise_disjoint; decide, by decide⟩,
    insert_unique_starts _ ⟨10, 20, 7⟩
      (by unfold store_inv sorted_starts pairwise_disjoint; decide) (by decide)⟩

/-!  Range splitting (C6). -/

/-- A strictly sorted sequence has no duplicates. -/
theorem sorted_starts_nodup {l : List profile_range} (hs : sorted_starts l) :
    l.Nodup :=
  hs.imp (fun h heq => by rw [heq] at h; omega)

/-- Replacing by `if · = old` is the identity away from `old`. -/
theorem map_replace_id (old new : profile_range) :
    ∀ (l : List profile_range), old ∉ l →
      l.map (fun r => if r = old then new else r) = l := by
  intro l
  induction l with
  | nil => intro _; rfl
  | cons a l ih =>
    intro h
    rw [List.map_cons, if_neg (fun heq => h (by simp [heq])),
      ih (fun hm => h (by simp [hm]))]

/-- In-order effect of the in-place payload mutation: with no duplicate
nodes, exactly the occurrences of `old` become `new`. -/
theorem inorder_tree_replace (old new : profile_range) :
    ∀ (t : Rbt), (inorder t).Nodup →
      inorder (tree_replace t old new)
        = (inorder t).map (fun r => if r = old then new else r) := by
  intro t
  induction t with
  | leaf => intro _; rfl
  | node l r rt ihl ihr =>
    intro hnd
    rw [Rbt.inorder, List.nodup_append] at hnd
    obtain ⟨hndl, hndr, hdisj⟩ := hnd
    rw [List.nodup_cons] at hndr
    rw [tree_replace]
    by_cases hro : r = old
    · rw [if_pos hro]
      have hold_l : old ∉ inorder l := fun hm => hdisj hm (by simp [hro])
      have hold_rt : old ∉ inorder rt := by rw [← hro]; exact hndr.1
      rw [Rbt.inorder, Rbt.inorder, List.map_append, List.map_cons,
        if_pos hro, map_replace_id old new _ hold_l, map_replace_id old new _ hold_rt]
    · rw [if_neg hro]
      rw [Rbt.inorder, Rbt.inorder, List.map_append, List.map_cons, if_neg hro,
        ihl hndl, ihr hndr.2]

/-- A pairwise symmetric relation holds between any two distinct members. -/
theorem pairwise_mem_rel {R : profile_range → profile_range → Prop}
    (hsym : ∀ a b, R a b → R b a) :
    ∀ (l : List profile_range), l.Pairwise R →
      ∀ a ∈ l, ∀ b ∈ l, a ≠ b → R a b := by
  intro l
  induction l with
  | nil => simp
  | cons c cs ih =>
    intro hp a ha b hb hab
    rw [List.pairwise_cons] at hp
    rcases List.mem_cons.mp ha with ha0 | ha' <;>
      rcases List.mem_cons.mp hb with hb0 | hb'
    · exact absurd (ha0.trans hb0.symm) hab
    · subst ha0; exact hp.1 b hb'
    · subst hb0; exact hsym _ _ (hp.1 a ha')
    · exact ih hp.2 a ha' b hb' hab

/-- If nothing stored overlaps the new range, the eviction descent finds
nothing. -/
theorem first_overlapping_clean :
    ∀ (t : Rbt) (x : profile_range),
      (∀ q ∈ inorder t, ranges_overlap x q = false) →
      first_overlapping t x = none := by
  intro t
  induction t with
  | leaf => intro x _; rfl
  | node l r rt ihl ihr =>
    intro x h
    have hr0 : ranges_overlap x r = false := h r (by simp [Rbt.inorder])
    rw [first_overlapping, if_neg (by simp [hr0])]
    by_cases hlt : x.start < r.start
    · rw [if_pos hlt]
      exact ihl x (fun q hq => h q (by simp [Rbt.inorder, hq]))
    · rw [if_neg hlt]
      exact ihr x (fun q hq => h q (by simp [Rbt.inorder, hq]))

/-- C6: splitting a stored non-empty range `[s,e)` with benefit `V` at an
interior address with `Gt` leaves the working tree containing `[s,addr)`
with benefit 0 and `[addr,e)` with benefit `V`, and the two do not
overlap. -/
theorem split_gt_correct (t : Rbt) (r : profile_range) (addr : Nat)
    (hinv : store_inv t) (hr : r ∈ inorder t)
    (h1 : r.start < addr) (h2 : addr < r.stop) :
    (⟨r.start, addr, 0⟩ : profile_range)
        ∈ inorder (mm_split_ranges r t addr CompGreaterThan) ∧
    (⟨addr, r.stop, r.benefit⟩ : profile_range)
        ∈ inorder (mm_split_ranges r t addr CompGreaterThan) ∧
    ranges_overlap (⟨r.start, addr, 0⟩ : profile_range)
        ⟨addr, r.stop, r.benefit⟩ = false := by
  obtain ⟨hs, hd, hne⟩ := hinv
  have hnd : (inorder t).Nodup := sorted_starts_nodup hs
  have hclear : ∀ q ∈ inorder t, q ≠ r → ranges_overlap q r = false := by
    intro q hq hqr
    exact pairwise_mem_rel (fun a b hab => by rw [ranges_overlap_comm]; exact hab)
      (inorder t) hd q hq r hr hqr
  have hrep := inorder_tree_replace r ⟨addr, r.stop, r.benefit⟩ t hnd
  -- the tree after the in-place narrowing of `r`
  have hmem_r' : (⟨addr, r.stop, r.benefit⟩ : profile_range)
      ∈ inorder (tree_replace t r ⟨addr, r.stop, r.benefit⟩) := by
    rw [hrep]
    exact List.mem_map.mpr ⟨r, hr, by simp⟩
  have hmem_other : ∀ q' ∈ inorder (tree_replace t r ⟨addr, r.stop, r.benefit⟩),
      q' = ⟨addr, r.stop, r.benefit⟩ ∨ (q' ∈ inorder t ∧ q' ≠ r) := by
    intro q' hq'
    rw [hrep] at hq'
    obtain ⟨a, ha, hfa⟩ := List.mem_map.mp hq'
    by_cases har : a = r
    · left; rw [← hfa, har, if_pos rfl]
    · right
      rw [← hfa, if_neg har]
      exact ⟨ha, har⟩
  -- arithmetic bounds on the other stored ranges
  have hbounds : ∀ q ∈ inorder t, q ≠ r →
      (q.stop ≤ r.start ∧ q.start < r.start) ∨ r.stop ≤ q.start := by
    intro q hq hqr
    have hov := hclear q hq hqr
    rw [← Bool.not_eq_true, ranges_overlap_iff] at hov
    have hqs : q.start ≠ r.start := by
      intro heq
      exact hqr (sorted_starts_unique (inorder t) hs q hq r hr heq)
    have := hne q hq
    omega
  -- the replaced tree still satisfies the invariant
  have hsorted'' : sorted_starts (inorder (tree_replace t r ⟨addr, r.stop, r.benefit⟩)) := by
    rw [sorted_starts, hrep, List.pairwise_map]
    refine (hs.and hd).imp ?_
    intro a b hab
    by_cases har : a = r <;> by_cases hbr : b = r
    · rw [har, hbr] at hab; omega
    · rw [if_pos har, if_neg hbr]
      rw [har] at hab
      have hov := hab.2
      rw [← Bool.not_eq_true, ranges_overlap_iff] at hov
      simp only
      omega
    · rw [if_neg har, if_pos hbr]
      rw [hbr] at hab
      simp only
      omega
    · rw [if_neg har, if_neg hbr]; exact hab.1
  have hnostart : ∀ q' ∈ inorder (tree_replace t r ⟨addr, r.stop, r.benefit⟩),
      q'.start ≠ (⟨r.start, addr, 0⟩ : profile_range).start := by
    intro q' hq'
    rcases hmem_other q' hq' with hq0 | ⟨hqt, hqr⟩
    · rw [hq0]; simp only; omega
    · rcases hbounds q' hqt hqr with hb | hb
      · simp only; omega
      · simp only; omega
  have hnov : ∀ q' ∈ inorder (tree_replace t r ⟨addr, r.stop, r.benefit⟩),
      ranges_overlap (⟨r.start, addr, 0⟩ : profile_range) q' = false := by
    intro q' hq'
    rcases hmem_other q' hq' with hq0 | ⟨hqt, hqr⟩
    · rw [hq0, ← Bool.not_eq_true, ranges_overlap_iff]
      simp only
      omega
    · rcases hbounds q' hqt hqr with hb | hb <;>
        · rw [← Bool.not_eq_true, ranges_overlap_iff]
          simp only
          omega
  -- eviction finds nothing, and the ordered insert applies
  have hnoev : remove_overlapping_ranges
      (tree_replace t r ⟨addr, r.stop, r.benefit⟩) ⟨r.start, addr, 0⟩
      = tree_replace t r ⟨addr, r.stop, r.benefit⟩ := by
    rw [remove_overlapping_ranges, first_overlapping_clean _ _ hnov]
  have hins := inorder_rb_insert_descent
    (tree_replace t r ⟨addr, r.stop, r.benefit⟩) ⟨r.start, addr, 0⟩
    hsorted'' hnostart
  have hgoal : inorder (mm_split_ranges r t addr CompGreaterThan)
      = insert_sorted ⟨r.start, addr, 0⟩
          (inorder (tree_replace t r ⟨addr, r.stop, r.benefit⟩)) := by
    simp only [mm_split_ranges, if_neg (by omega : ¬ addr ≤ r.start)]
    rw [profile_range_insert, hnoev, hins]
  rw [hgoal]
  refine ⟨?_, ?_, ?_⟩
  · exact (insert_sorted_perm _ _).mem_iff.mpr (by simp)
  · exact (insert_sorted_perm _ _).mem_iff.mpr (List.mem_cons_of_mem _ hmem_r')
  · rw [← Bool.not_eq_true, ranges_overlap_iff]
    simp only
    omega

/-- Witness for C6: splitting `[0,100)` (benefit 7) at 40 with `Gt` on the
singleton working tree. -/
theorem split_gt_correct_witness :
    ((⟨0, 40, 0⟩ : profile_range)
        ∈ inorder (mm_split_ranges ⟨0, 100, 7⟩
            (Rbt.node Rbt.leaf ⟨0, 100, 7⟩ Rbt.leaf) 40 CompGreaterThan) ∧
      (⟨40, 100, 7⟩ : profile_range)
        ∈ inorder (mm_split_ranges ⟨0, 100, 7⟩
            (Rbt.node Rbt.leaf ⟨0, 100, 7⟩ Rbt.leaf) 40 CompGreaterThan) ∧
      ranges_overlap (⟨0, 40, 0⟩ : profile_range) ⟨40, 100, 7⟩ = false) :=
  split_gt_correct (Rbt.node Rbt.leaf ⟨0, 100, 7⟩ Rbt.leaf) ⟨0, 100, 7⟩ 40
    (by unfold store_inv sorted_starts pairwise_disjoint; decide)
    (by decide) (by decide) (by decide)

/-!  Directional search (C5). -/

/-- A valid store separates: each range ends before the next begins. -/
theorem store_inv_sep {t : Rbt} (hinv : store_inv t) :
    (inorder t).Pairwise (fun a b => a.stop ≤ b.start) := by
  refine (hinv.1.and hinv.2.1).imp ?_
  intro a b hab
  have hov := hab.2
  rw [← Bool.not_eq_true, ranges_overlap_iff] at hov
  omega

/-- Stops increase strictly along a valid store. -/
theorem store_inv_stops {t : Rbt} (hinv : store_inv t) :
    (inorder t).Pairwise (fun a b => a.stop < b.stop) := by
  have hsep := store_inv_sep hinv
  refine List.Pairwise.imp_of_mem ?_ hsep
  intro a b _ hb hab
  have := hinv.2.2 b hb
  omega

/-- The head of a sorted run bounds every member. -/
theorem sorted_head_le {p : profile_range} {rest : List profile_range}
    (hs : sorted_starts (p :: rest)) : ∀ q ∈ p :: rest, p.start ≤ q.start := by
  intro q hq
  rw [sorted_starts, List.pairwise_cons] at hs
  rcases List.mem_cons.mp hq with h | h
  · subst h; omega
  · have := hs.1 q h; omega

/-- `CompLessThan` phase one, empty answer: every start is at least
`addr`. -/
theorem ff_lt_phase1_none (addr : Nat) :
    ∀ (t : Rbt), sorted_starts (inorder t) → ff_lt_phase1 t addr = none →
      ∀ q ∈ inorder t, addr ≤ q.start := by
  intro t
  induction t with
  | leaf => intro _ _ q hq; simp [Rbt.inorder] at hq
  | node l r rt ihl _ =>
    intro hs h q hq
    rw [ff_lt_phase1] at h
    by_cases hlt : r.start < addr
    · rw [if_pos hlt] at h; exact absurd h (by simp)
    · rw [if_neg hlt] at h
      rw [Rbt.inorder] at hq
      rcases List.mem_append.mp hq with hql | hqr
      · exact ihl (pairwise_node hs).1 h q hql
      · rcases List.mem_cons.mp hqr with hq0 | hqrt
        · subst hq0; omega
        · have := (pairwise_node hs).2.2.2.1 q hqrt; omega

/-- `CompLessThan` phase one, witness found. -/
theorem ff_lt_phase1_some (addr : Nat) :
    ∀ (t : Rbt) (w : profile_range), ff_lt_phase1 t addr = some w →
      w ∈ inorder t ∧ w.start < addr := by
  intro t
  induction t with
  | leaf => intro w h; simp [ff_lt_phase1] at h
  | node l r rt ihl _ =>
    intro w h
    rw [ff_lt_phase1] at h
    by_cases hlt : r.start < addr
    · rw [if_pos hlt] at h
      rw [Option.some.injEq] at h
      subst h
      exact ⟨by simp [Rbt.inorder], hlt⟩
    · rw [if_neg hlt] at h
      obtain ⟨hm, hw⟩ := ihl w h
      exact ⟨by simp [Rbt.inorder, hm], hw⟩

/-- The forward walk of phase two for `CompLessThan` returns the last
witness of the sorted run with start below `addr`. -/
theorem ff_lt_scan_spec (addr : Nat) :
    ∀ (rest : List profile_range) (res : profile_range),
      sorted_starts (res :: rest) → res.start < addr →
      ff_lt_scan res rest addr ∈ res :: rest ∧
      (ff_lt_scan res rest addr).start < addr ∧
      ∀ q ∈ res :: rest, q.start < addr →
        q.start ≤ (ff_lt_scan res rest addr).start := by
  intro rest
  induction rest with
  | nil =>
    intro res _ hlt
    rw [ff_lt_scan]
    refine ⟨by simp, hlt, ?_⟩
    intro q hq _
    rw [List.mem_singleton] at hq
    subst hq
    omega
  | cons p rest ih =>
    intro res hs hlt
    rw [ff_lt_scan]
    by_cases hp : addr ≤ p.start
    · rw [if_pos hp]
      refine ⟨by simp, hlt, ?_⟩
      intro q hq hqlt
      rcases List.mem_cons.mp hq with hq0 | hq'
      · subst hq0; omega
      · have := sorted_head_le ((List.pairwise_cons.mp hs).2) q hq'
        omega
    · rw [if_neg hp]
      have hs' : sorted_starts (p :: rest) := (List.pairwise_cons.mp hs).2
      obtain ⟨hmem, hwlt, hmax⟩ := ih p hs' (by omega)
      refine ⟨List.mem_cons_of_mem _ hmem, hwlt, ?_⟩
      intro q hq hqlt
      rcases List.mem_cons.mp hq with hq0 | hq'
      · subst hq0
        have hres : q.start < p.start := (List.pairwise_cons.mp hs).1 p (by simp)
        have := sorted_head_le hs' _ hmem
        omega
      · exact hmax q hq' hqlt

/-- Prefix of the in-order sequence before node `w`. -/
theorem predBefore_eq (w : profile_range) (post : List profile_range) :
    ∀ (pre : List profile_range), w ∉ pre →
      predBefore (pre ++ w :: post) w = pre.reverse := by
  intro pre
  induction pre with
  | nil => intro _; simp [predBefore, List.takeWhile_cons]
  | cons a pre ih =>
    intro hw
    have haw : a ≠ w := fun h => hw (by simp [h])
    have hw' : w ∉ pre := fun h => hw (by simp [h])
    have ihr := ih hw'
    rw [predBefore] at ihr ⊢
    have ihr' := List.reverse_inj.mp ihr
    rw [List.cons_append, List.takeWhile_cons, if_pos (by simp [haw]), ihr']

/-- `CompGreaterThan` phase one, empty answer: every stop is at most
`addr`. -/
theorem ff_gt_phase1_none (addr : Nat) :
    ∀ (t : Rbt), store_inv t → ff_gt_phase1 t addr = none →
      ∀ q ∈ inorder t, q.stop ≤ addr := by
  intro t
  induction t with
  | leaf => intro _ _ q hq; simp [Rbt.inorder] at hq
  | node l r rt _ ihr =>
    intro hinv h q hq
    rw [ff_gt_phase1] at h
    by_cases hgt : addr < r.stop
    · rw [if_pos hgt] at h; exact absurd h (by simp)
    · rw [if_neg hgt] at h
      rw [Rbt.inorder] at hq
      rcases List.mem_append.mp hq with hql | hqr
      · have hsep := (pairwise_node (store_inv_sep hinv)).2.2.1 q hql
        have hner := hinv.2.2 r (by simp [Rbt.inorder])
        omega
      · rcases List.mem_cons.mp hqr with hq0 | hqrt
        · subst hq0; omega
        · exact ihr (store_inv_right hinv) h q hqrt

/-- `CompGreaterThan` phase one, witness found. -/
theorem ff_gt_phase1_some (addr : Nat) :
    ∀ (t : Rbt) (w : profile_range), ff_gt_phase1 t addr = some w →
      w ∈ inorder t ∧ addr < w.stop := by
  intro t
  induction t with
  | leaf => intro w h; simp [ff_gt_phase1] at h
  | node l r rt _ ihr =>
    intro w h
    rw [ff_gt_phase1] at h
    by_cases hgt : addr < r.stop
    · rw [if_pos hgt] at h
      rw [Option.some.injEq] at h
      subst h
      exact ⟨by simp [Rbt.inorder], hgt⟩
    · rw [if_neg hgt] at h
      obtain ⟨hm, hw⟩ := ihr w h
      exact ⟨by simp [Rbt.inorder, hm], hw⟩

/-- The backward walk of phase two for `CompGreaterThan` returns the last
witness of the stop-decreasing run with stop above `addr`. -/
theorem ff_gt_scan_spec (addr : Nat) :
    ∀ (rest : List profile_range) (res : profile_range),
      (res :: rest).Pairwise (fun a b => b.stop < a.stop) → addr < res.stop →
      ff_gt_scan res rest addr ∈ res :: rest ∧
      addr < (ff_gt_scan res rest addr).stop ∧
      ∀ q ∈ res :: rest, addr < q.stop →
        (ff_gt_scan res rest addr).stop ≤ q.stop := by
  intro rest
  induction rest with
  | nil =>
    intro res _ hgt
    rw [ff_gt_scan]
    refine ⟨by simp, hgt, ?_⟩
    intro q hq _
    rw [List.mem_singleton] at hq
    subst hq
    omega
  | cons p rest ih =>
    intro res hs hgt
    rw [ff_gt_scan]
    by_cases hp : p.stop ≤ addr
    · rw [if_pos hp]
      refine ⟨by simp, hgt, ?_⟩
      intro q hq hqgt
      rcases List.mem_cons.mp hq with hq0 | hq'
      · subst hq0; omega
      · rcases List.mem_cons.mp hq' with hq0 | hq''
        · subst hq0; omega
        · have := (List.pairwise_cons.mp ((List.pairwise_cons.mp hs).2)).1 q hq''
          omega
    · rw [if_neg hp]
      have hs' : (p :: rest).Pairwise (fun a b => b.stop < a.stop) :=
        (List.pairwise_cons.mp hs).2
      obtain ⟨hmem, hwgt, hmin⟩ := ih p hs' (by omega)
      refine ⟨List.mem_cons_of_mem _ hmem, hwgt, ?_⟩
      intro q hq hqgt
      rcases List.mem_cons.mp hq with hq0 | hq'
      · subst hq0
        have hres : p.stop < q.stop := (List.pairwise_cons.mp hs).1 p (by simp)
        have hle : (ff_gt_scan p rest addr).stop ≤ p.stop := by
          rcases List.mem_cons.mp hmem with hm0 | hm'
          · rw [hm0]
          · have := (List.pairwise_cons.mp hs').1 _ hm'
            omega
        omega
      · exact hmin q hq' hqgt

/-- The `CompEquals` descent finds a containing range when it reports
one. -/
theorem ff_eq_descent_some (addr : Nat) :
    ∀ (t : Rbt) (w : profile_range), ff_eq_descent t addr = some w →
      w ∈ inorder t ∧ w.start ≤ addr ∧ addr < w.stop := by
  intro t
  induction t with
  | leaf => intro w h; simp [ff_eq_descent] at h
  | node l r rt ihl ihr =>
    intro w h
    rw [ff_eq_descent] at h
    by_cases hc : r.start ≤ addr ∧ addr < r.stop
    · rw [if_pos hc] at h
      rw [Option.some.injEq] at h
      subst h
      exact ⟨by simp [Rbt.inorder], hc⟩
    · rw [if_neg hc] at h
      by_cases hlt : r.start < addr
      · rw [if_pos hlt] at h
        obtain ⟨hm, hw⟩ := ihr w h
        exact ⟨by simp [Rbt.inorder, hm], hw⟩
      · rw [if_neg hlt] at h
        obtain ⟨hm, hw⟩ := ihl w h
        exact ⟨by simp [Rbt.inorder, hm], hw⟩

/-- The `CompEquals` descent misses only when no stored range contains the
address. -/
theorem ff_eq_descent_none (addr : Nat) :
    ∀ (t : Rbt), store_inv t → ff_eq_descent t addr = none →
      ∀ q ∈ inorder t, ¬ (q.start ≤ addr ∧ addr < q.stop) := by
  intro t
  induction t with
  | leaf => intro _ _ q hq; simp [Rbt.inorder] at hq
  | node l r rt ihl ihr =>
    intro hinv h q hq
    rw [ff_eq_descent] at h
    by_cases hc : r.start ≤ addr ∧ addr < r.stop
    · rw [if_pos hc] at h; exact absurd h (by simp)
    · rw [if_neg hc] at h
      rw [Rbt.inorder] at hq
      by_cases hlt : r.start < addr
      · rw [if_pos hlt] at h
        rcases List.mem_append.mp hq with hql | hqr
        · have hsep := (pairwise_node (store_inv_sep hinv)).2.2.1 q hql
          omega
        · rcases List.mem_cons.mp hqr with hq0 | hqrt
          · subst hq0; exact hc
          · exact ihr (store_inv_right hinv) h q hqrt
      · rw [if_neg hlt] at h
        rcases List.mem_append.mp hq with hql | hqr
        · exact ihl (store_inv_left hinv) h q hql
        · rcases List.mem_cons.mp hqr with hq0 | hqrt
          · subst hq0; exact hc
          · have hsep := (pairwise_node (store_inv_sep hinv)).2.2.2.1 q hqrt
            have hner := hinv.2.2 r (by simp [Rbt.inorder])
            omega

/-- C5: on a store of non-empty pairwise non-overlapping ranges,
`profile_find_first_range` returns: for `Lt` the stored range of largest
start strictly below `addr` (none when no start is below `addr`); for `Gt`
the stored range of smallest end strictly above `addr` (none when no end is
above `addr`); for `Eq` the unique stored range containing `addr` (none when
no range contains it). -/
theorem find_first_correct (t : Rbt) (addr : Nat) (hinv : store_inv t) :
    (∀ w, profile_find_first_range t addr CompLessThan = some w →
        w ∈ inorder t ∧ w.start < addr ∧
          ∀ q ∈ inorder t, q.start < addr → q.start ≤ w.start) ∧
    (profile_find_first_range t addr CompLessThan = none →
        ∀ q ∈ inorder t, ¬ q.start < addr) ∧
    (∀ w, profile_find_first_range t addr CompGreaterThan = some w →
        w ∈ inorder t ∧ addr < w.stop ∧
          ∀ q ∈ inorder t, addr < q.stop → w.stop ≤ q.stop) ∧
    (profile_find_first_range t addr CompGreaterThan = none →
        ∀ q ∈ inorder t, ¬ addr < q.stop) ∧
    (∀ w, profile_find_first_range t addr CompEquals = some w →
        w ∈ inorder t ∧ w.start ≤ addr ∧ addr < w.stop ∧
          ∀ q ∈ inorder t, q.start ≤ addr → addr < q.stop → q = w) ∧
    (profile_find_first_range t addr CompEquals = none →
        ∀ q ∈ inorder t, ¬ (q.start ≤ addr ∧ addr < q.stop)) := by
  refine ⟨?_, ?_, ?_, ?_, ?_, ?_⟩
  · -- Lt, witness returned
    intro w hw
    simp only [profile_find_first_range] at hw
    cases hph : ff_lt_phase1 t addr with
    | none => rw [hph] at hw; exact absurd hw (by simp)
    | some w0 =>
      rw [hph] at hw
      simp only [Option.some.injEq] at hw
      obtain ⟨hw0mem, hw0lt⟩ := ff_lt_phase1_some addr t w0 hph
      obtain ⟨pre, post, heq, hsuff, hpre⟩ := suffFrom_spec w0 (inorder t) hw0mem
      have hsucc : succAfter (inorder t) w0 = post := by
        rw [succAfter, hsuff]; rfl
      have hs_run : sorted_starts (w0 :: post) := by
        have := hinv.1
        rw [sorted_starts, heq, List.pairwise_append] at this
        exact this.2.1
      obtain ⟨hscan_mem, hscan_lt, hscan_max⟩ :=
        ff_lt_scan_spec addr post w0 hs_run hw0lt
      rw [hsucc] at hw
      refine ⟨?_, ?_, ?_⟩
      · rw [← hw, heq]; exact List.mem_append_right _ hscan_mem
      · rw [← hw]; exact hscan_lt
      · intro q hq hqlt
        rw [← hw]
        rw [heq] at hq
        rcases List.mem_append.mp hq with hqpre | hqrun
        · have h1 : q.start < w0.start := by
            have := hinv.1
            rw [sorted_starts, heq, List.pairwise_append] at this
            exact this.2.2 q hqpre w0 (by simp)
          have h2 := sorted_head_le hs_run _ hscan_mem
          omega
        · exact hscan_max q hqrun hqlt
  · -- Lt, no witness
    intro hnone q hq hqlt
    simp only [profile_find_first_range] at hnone
    cases hph : ff_lt_phase1 t addr with
    | none =>
      have := ff_lt_phase1_none addr t hinv.1 hph q hq
      omega
    | some w0 => rw [hph] at hnone; exact absurd hnone (by simp)
  · -- Gt, witness returned
    intro w hw
    simp only [profile_find_first_range] at hw
    cases hph : ff_gt_phase1 t addr with
    | none => rw [hph] at hw; exact absurd hw (by simp)
    | some w0 =>
      rw [hph] at hw
      simp only [Option.some.injEq] at hw
      obtain ⟨hw0mem, hw0gt⟩ := ff_gt_phase1_some addr t w0 hph
      obtain ⟨pre, post, heq, hsuff, hpre⟩ := suffFrom_spec w0 (inorder t) hw0mem
      have hpred : predBefore (inorder t) w0 = pre.reverse := by
        rw [heq]; exact predBefore_eq w0 post pre hpre
      have hstops := store_inv_stops hinv
      rw [heq, List.pairwise_append] at hstops
      have hs_run : (w0 :: pre.reverse).Pairwise (fun a b => b.stop < a.stop) := by
        refine List.pairwise_cons.mpr ⟨?_, ?_⟩
        · intro b hb
          exact hstops.2.2 b (List.mem_reverse.mp hb) w0 (by simp)
        · rw [List.pairwise_reverse]
          exact hstops.1
      obtain ⟨hscan_mem, hscan_gt, hscan_min⟩ :=
        ff_gt_scan_spec addr pre.reverse w0 hs_run hw0gt
      rw [hpred] at hw
      have hmem_t : ff_gt_scan w0 pre.reverse addr ∈ inorder t := by
        rw [heq]
        rcases List.mem_cons.mp hscan_mem with h0 | h'
        · rw [h0]; simp
        · exact List.mem_append_left _ (List.mem_reverse.mp h')
      have hscan_le_w0 : (ff_gt_scan w0 pre.reverse addr).stop ≤ w0.stop := by
        rcases List.mem_cons.mp hscan_mem with h0 | h'
        · rw [h0]
        · have := (List.pairwise_cons.mp hs_run).1 _ h'
          omega
      refine ⟨?_, ?_, ?_⟩
      · rw [← hw]; exact hmem_t
      · rw [← hw]; exact hscan_gt
      · intro q hq hqgt
        rw [← hw]
        rw [heq] at hq
        rcases List.mem_append.mp hq with hqpre | hqrun
        · exact hscan_min q (List.mem_cons_of_mem _ (List.mem_reverse.mpr hqpre)) hqgt
        · rcases List.mem_cons.mp hqrun with hq0 | hqpost
          · subst hq0; exact hscan_le_w0
          · have : w0.stop < q.stop := (List.pairwise_cons.mp hstops.2.1).1 q hqpost
            omega
  · -- Gt, no witness
    intro hnone q hq hqgt
    simp only [profile_find_first_range] at hnone
    cases hph : ff_gt_phase1 t addr with
    | none =>
      have := ff_gt_phase1_none addr t hinv hph q hq
      omega
    | some w0 => rw [hph] at hnone; exact absurd hnone (by simp)
  · -- Eq, witness returned
    intro w hw
    simp only [profile_find_first_range] at hw
    obtain ⟨hm, h1, h2⟩ := ff_eq_descent_some addr t w hw
    refine ⟨hm, h1, h2, ?_⟩
    intro q hq hq1 hq2
    by_cases hqw : q = w
    · exact hqw
    · exfalso
      have hov := pairwise_mem_rel
        (fun a b hab => by rw [ranges_overlap_comm]; exact hab)
        (inorder t) hinv.2.1 q hq w hm hqw
      rw [← Bool.not_eq_true, ranges_overlap_iff] at hov
      omega
  · -- Eq, no witness
    intro hnone q hq
    simp only [profile_find_first_range] at hnone
    exact ff_eq_descent_none addr t hinv hnone q hq

/-- Witness for C5 on the concrete valid store `{[5,15), [18,25)}` at
address 16. -/
theorem find_first_correct_witness :
    store_inv (Rbt.node Rbt.leaf ⟨5, 15, 3⟩ (Rbt.node Rbt.leaf ⟨18, 25, 4⟩ Rbt.leaf)) ∧
    ((∀ w, profile_find_first_range
          (Rbt.node Rbt.leaf ⟨5, 15, 3⟩ (Rbt.node Rbt.leaf ⟨18, 25, 4⟩ Rbt.leaf))
          16 CompLessThan = some w →
        w ∈ inorder (Rbt.node Rbt.leaf ⟨5, 15, 3⟩ (Rbt.node Rbt.leaf ⟨18, 25, 4⟩ Rbt.leaf)) ∧
          w.start < 16 ∧
          ∀ q ∈ inorder (Rbt.node Rbt.leaf ⟨5, 15, 3⟩ (Rbt.node Rbt.leaf ⟨18, 25, 4⟩ Rbt.leaf)),
            q.start < 16 → q.start ≤ w.start) ∧
      (profile_find_first_range
          (Rbt.node Rbt.leaf ⟨5, 15, 3⟩ (Rbt.node Rbt.leaf ⟨18, 25, 4⟩ Rbt.leaf))
          16 CompLessThan = none →
        ∀ q ∈ inorder (Rbt.node Rbt.leaf ⟨5, 15, 3⟩ (Rbt.node Rbt.leaf ⟨18, 25, 4⟩ Rbt.leaf)),
          ¬ q.start < 16) ∧
      (∀ w, profile_find_first_range
          (Rbt.node Rbt.leaf ⟨5, 15, 3⟩ (Rbt.node Rbt.leaf ⟨18, 25, 4⟩ Rbt.leaf))
          16 CompGreaterThan = some w →
        w ∈ inorder (Rbt.node Rbt.leaf ⟨5, 15, 3⟩ (Rbt.node Rbt.leaf ⟨18, 25, 4⟩ Rbt.leaf)) ∧
          16 < w.stop ∧
          ∀ q ∈ inorder (Rbt.node Rbt.leaf ⟨5, 15, 3⟩ (Rbt.node Rbt.leaf ⟨18, 25, 4⟩ Rbt.leaf)),
            16 < q.stop → w.stop ≤ q.stop) ∧
      (profile_find_first_range
          (Rbt.node Rbt.leaf ⟨5, 15, 3⟩ (Rbt.node Rbt.leaf ⟨18, 25, 4⟩ Rbt.leaf))
          16 CompGreaterThan = none →
        ∀ q ∈ inorder (Rbt.node Rbt.leaf ⟨5, 15, 3⟩ (Rbt.node Rbt.leaf ⟨18, 25, 4⟩ Rbt.leaf)),
          ¬ 16 < q.stop) ∧
      (∀ w, profile_find_first_range
          (Rbt.node Rbt.leaf ⟨5, 15, 3⟩ (Rbt.node Rbt.leaf ⟨18, 25, 4⟩ Rbt.leaf))
          16 CompEquals = some w →
        w ∈ inorder (Rbt.node Rbt.leaf ⟨5, 15, 3⟩ (Rbt.node Rbt.leaf ⟨18, 25, 4⟩ Rbt.leaf)) ∧
          w.start ≤ 16 ∧ 16 < w.stop ∧
          ∀ q ∈ inorder (Rbt.node Rbt.leaf ⟨5, 15, 3⟩ (Rbt.node Rbt.leaf ⟨18, 25, 4⟩ Rbt.leaf)),
            q.start ≤ 16 → 16 < q.stop → q = w) ∧
      (profile_find_first_range
          (Rbt.node Rbt.leaf ⟨5, 15, 3⟩ (Rbt.node Rbt.leaf ⟨18, 25, 4⟩ Rbt.leaf))
          16 CompEquals = none →
        ∀ q ∈ inorder (Rbt.node Rbt.leaf ⟨5, 15, 3⟩ (Rbt.node Rbt.leaf ⟨18, 25, 4⟩ Rbt.leaf)),
          ¬ (q.start ≤ 16 ∧ 16 < q.stop))) :=
  ⟨by unfold store_inv sorted_starts pairwise_disjoint; decide,
    find_first_correct (Rbt.node Rbt.leaf ⟨5, 15, 3⟩ (Rbt.node Rbt.leaf ⟨18, 25, 4⟩ Rbt.leaf))
      16 (by unfold store_inv sorted_starts pairwise_disjoint; decide)⟩

/-!  The filter-write parsing contract (C8). -/

/-- `strsep` on a separator-free buffer consumes everything and NULLs the
source pointer. -/
theorem strsep_no_sep_none (sep : Char) :
    ∀ (s : List Char), sep ∉ s → strsep sep s = (s, none) := by
  intro s
  induction s with
  | nil => intro _; rfl
  | cons c cs ih =>
    intro h
    have hc : ¬ c = sep := fun heq => h (by simp [heq])
    have ih' := ih (fun hm => h (by simp [hm]))
    simp [strsep, hc, ih']

/-- `strsep` splits at the first separator. -/
theorem strsep_first (sep : Char) :
    ∀ (l : List Char), sep ∉ l → ∀ (r : List Char),
      strsep sep (l ++ sep :: r) = (l, some r) := by
  intro l
  induction l with
  | nil => intro _ r; simp [strsep]
  | cons c cs ih =>
    intro h r
    have hc : ¬ c = sep := fun heq => h (by simp [heq])
    have ih' := ih (fun hm => h (by simp [hm])) r
    simp [strsep, hc, ih']

/-- One iteration of the write loop on a newline-terminated token. -/
theorem write_loop_unfold (tok restl : List Char) (bytes : Nat)
    (htok : '\n' ∉ tok) :
    mmap_filters_write_loop (tok ++ '\n' :: restl) bytes
      = if tok = [] then
          (if bytes = 0 then Except.error (-22) else Except.ok bytes)
        else
          match parse_filter tok with
          | none => if bytes = 0 then Except.error (-22) else Except.ok bytes
          | some _ => mmap_filters_write_loop restl (bytes + (tok.length + 1)) := by
  rw [mmap_filters_write_loop, strsep_first '\n' tok htok restl]

/-- The write loop at the trailing (truncated or malformed) remainder:
report the bytes accepted so far, or `-EINVAL` when none were. -/
theorem write_loop_rest (rest : List Char) (bytes : Nat)
    (hrest : ('\n' ∉ rest) ∨
      (∃ b r2, rest = b ++ '\n' :: r2 ∧ '\n' ∉ b ∧
        (b = [] ∨ parse_filter b = none))) :
    mmap_filters_write_loop rest bytes
      = if bytes = 0 then Except.error (-22) else Except.ok bytes := by
  rcases hrest with hnl | ⟨b, r2, heq, hbnl, hb⟩
  · rw [mmap_filters_write_loop, strsep_no_sep_none '\n' rest hnl]
  · subst heq
    rw [write_loop_unfold b r2 bytes hbnl]
    by_cases hb0 : b = []
    · rw [if_pos hb0]
    · rw [if_neg hb0]
      rcases hb with hb0' | hbad
      · exact absurd hb0' hb0
      · rw [hbad]

/-- The write loop across well-formed newline-terminated lines accumulates
exactly their byte counts before finishing at the remainder. -/
theorem write_loop_join (rest : List Char)
    (hrest : ('\n' ∉ rest) ∨
      (∃ b r2, rest = b ++ '\n' :: r2 ∧ '\n' ∉ b ∧
        (b = [] ∨ parse_filter b = none))) :
    ∀ (lines : List (List Char)) (bytes : Nat),
      (∀ l ∈ lines, parse_filter l ≠ none ∧ l ≠ [] ∧ '\n' ∉ l) →
      mmap_filters_write_loop (joinLines lines ++ rest) bytes
        = if bytes + ((lines.map (fun l => l.length + 1)).sum) = 0
          then Except.error (-22)
          else Except.ok (bytes + ((lines.map (fun l => l.length + 1)).sum)) := by
  intro lines
  induction lines with
  | nil =>
    intro bytes _
    simpa [joinLines] using write_loop_rest rest bytes hrest
  | cons l ls ih =>
    intro bytes hl
    obtain ⟨hpf, hne, hnl⟩ := hl l (by simp)
    have hjoin : joinLines (l :: ls) ++ rest = l ++ '\n' :: (joinLines ls ++ rest) := by
      simp [joinLines]
    rw [hjoin, write_loop_unfold l (joinLines ls ++ rest) bytes hnl, if_neg hne]
    cases hf : parse_filter l with
    | none => exact absurd hf hpf
    | some f =>
      rw [ih (bytes + (l.length + 1)) (fun q hq => hl q (by simp [hq]))]
      have hsum : bytes + (l.length + 1) + ((ls.map (fun l2 => l2.length + 1)).sum)
          = bytes + (((l :: ls).map (fun l2 => l2.length + 1)).sum) := by
        rw [List.map_cons, List.sum_cons]
        omega
      rw [hsum]

/-- C8: a filter-program write consisting of `k` complete well-formed
newline-terminated filter lines followed by a truncated (no further newline)
or malformed remainder returns exactly the total byte count of those `k`
lines including their newlines; when zero complete filters parse it returns
the format error `-EINVAL` (-22).  Lines are taken NUL-free so the character
list model coincides with the kernel's NUL-terminated buffer. -/
theorem mmap_filters_write_partial (lines : List (List Char)) (rest : List Char)
    (hlines : ∀ l ∈ lines,
      parse_filter l ≠ none ∧ l ≠ [] ∧ '\n' ∉ l ∧ Char.ofNat 0 ∉ l)
    (hrest : ('\n' ∉ rest) ∨
      (∃ b r2, rest = b ++ '\n' :: r2 ∧ '\n' ∉ b ∧
        (b = [] ∨ parse_filter b = none))) :
    mmap_filters_write (joinLines lines ++ rest)
      = if lines = [] then Except.error (-22)
        else Except.ok ((lines.map (fun l => l.length + 1)).sum) := by
  rw [mmap_filters_write,
    write_loop_join rest hrest lines 0
      (fun l hl => ⟨(hlines l hl).1, (hlines l hl).2.1, (hlines l hl).2.2.1⟩)]
  cases lines with
  | nil => simp
  | cons l ls =>
    have hpos : ((l :: ls).map (fun l2 => l2.length + 1)).sum ≠ 0 := by
      rw [List.map_cons, List.sum_cons]
      omega
    simp [hpos]

/-- Witness for C8: the complete line `huge,mmap,0x10` followed by the
truncated fragment `huge,da` is accepted for exactly 15 bytes. -/
theorem mmap_filters_write_partial_witness :
    ((∀ l ∈ [("huge,mmap,0x10".toList)],
        parse_filter l ≠ none ∧ l ≠ [] ∧ '\n' ∉ l ∧ Char.ofNat 0 ∉ l) ∧
      ('\n' ∉ "huge,da".toList)) ∧
    mmap_filters_write (joinLines [("huge,mmap,0x10".toList)] ++ "huge,da".toList)
      = Except.ok 15 := by
  constructor
  · exact ⟨by decide, by decide⟩
  · have h := mmap_filters_write_partial [("huge,mmap,0x10".toList)]
      ("huge,da".toList) (by decide) (Or.inl (by decide))
    simpa using h

end Cbmm
